import Mathlib

/-!
Verification of the sparse-activation simulation engine of
`src/app/page.tsx` (the `SparseLLM` component).

Shallow embedding notes.

* JS numbers are embedded as exact rationals (`ℚ`); all arithmetic the
  engine performs (`+`, `*`, `/ 128`, `Math.max`, `Math.min`, `Math.ceil`,
  comparison) is exact on the values that occur.
* `Math.random()` is embedded as an ambient stream `g : ℕ → ℚ` of draws,
  consumed in call order through an explicit counter; hypotheses
  `0 ≤ g m ∧ g m < 1` state the range of `Math.random`.
* The random shuffle `[...nextLayer].sort(() => Math.random() - 0.5)`
  (page.tsx line 64) produces an unspecified permutation of the array; it
  is embedded as a parameter `sh` together with the hypothesis that
  `sh i l` is a permutation of `l` (one independent shuffle per source
  unit, distinguished by the unit id `i`).
* Neuron ids are the strings `L<layer>-N<idx>`; the encoding
  `(layer, idx) ↦ "L<layer>-N<idx>"` is injective, so ids are embedded as
  pairs `ℕ × ℕ` with the same equality.  The layout coordinates `x`,`y`
  are written at build time and never read by the simulator, so they are
  omitted from the record.
* React state setters (`setNeurons`/`setConnections`) inside
  `processInput` are the snapshot emissions: the run is embedded as the
  list of states pushed by the per-layer loop (page.tsx lines 173-227);
  the reset state pushed before the loop (lines 167-168) is the run's
  starting state `resetState`.
* Inside a hidden-layer step the source mutates neuron activations while
  it walks the layer, but every value it reads (source neurons of
  incoming edges, edge targets' ids) belongs to records the walk does not
  write (ids and layers are never written, and activation reads go
  through `conn.from`, which on every state the engine runs on lies
  outside the layer being written).  The step is therefore embedded in
  two phases reading the entry state: `rawPhase` (weighted sums, ReLU,
  edge flags) then `gatePhase` (top-k gate).
-/

namespace SparseSim

/-- Neuron id: the pair (layer index, index in layer), standing for the
source id string `L<layer>-N<idx>`. -/
abbrev NId := ℕ × ℕ

/-- `Neuron` record of page.tsx lines 5-12 (layout coordinates omitted,
see the header note). -/
structure Neuron where
  id : NId
  active : Bool
  activation : ℚ
  layer : ℕ
deriving DecidableEq, Repr

/-- `Connection` record of page.tsx lines 14-19 (`from`/`to` renamed to
`fromId`/`toId`; `from` is a Lean keyword). -/
structure Connection where
  fromId : NId
  toId : NId
  weight : ℚ
  active : Bool
deriving DecidableEq, Repr

/-- The fixed layer sizes, page.tsx line 32. -/
def layerSizes : List ℕ := [16, 64, 128, 128, 64, 16]

/-- The per-layer loop bound of `processInput`, page.tsx line 173. -/
def numLayers : ℕ := 6

/-! ### Topology builder (page.tsx lines 31-80) -/

/-- Neuron creation for one layer: page.tsx lines 43-52. -/
def layerNeurons (layerIdx count : ℕ) : List Neuron :=
  (List.range count).map fun i =>
    { id := (layerIdx, i), active := false, activation := 0, layer := layerIdx }

/-- Neuron creation, layer by layer in order: page.tsx lines 41-53. -/
def buildNeuronsFrom : ℕ → List ℕ → List Neuron
  | _, [] => []
  | i, c :: rest => layerNeurons i c ++ buildNeuronsFrom (i + 1) rest

def buildNeurons (sizes : List ℕ) : List Neuron :=
  buildNeuronsFrom 0 sizes

/-- The edges pushed for one source unit: page.tsx lines 61-73.
`sh fromN.id nextLayer` is the shuffled copy of the next layer and
`r fromN.id t` the `Math.random()` draw for the `t`-th pushed weight. -/
def connsFor (sh : NId → List Neuron → List Neuron) (r : NId → ℕ → ℚ)
    (nextLayer : List Neuron) (fromN : Neuron) : List Connection :=
  let k := min 8 nextLayer.length
  let targets := (sh fromN.id nextLayer).take k
  targets.enum.map fun p =>
    { fromId := fromN.id, toId := p.2.id, weight := r fromN.id p.1 * 2 - 1,
      active := false }

/-- Edge creation: page.tsx lines 56-76. -/
def buildConnections (sh : NId → List Neuron → List Neuron) (r : NId → ℕ → ℚ)
    (sizes : List ℕ) (ns : List Neuron) : List Connection :=
  (List.range sizes.length).flatMap fun layerIdx =>
    if layerIdx < sizes.length - 1 then
      (ns.filter fun n => decide (n.layer = layerIdx)).flatMap
        (connsFor sh r (ns.filter fun n => decide (n.layer = layerIdx + 1)))
    else []

/-! ### Forward-pass simulator (page.tsx lines 147-241) -/

/-- One simulation state: the working copies `updatedNeurons` /
`updatedConnections` of `processInput`. -/
structure SimState where
  neurons : List Neuron
  connections : List Connection
deriving DecidableEq, Repr

/-- Tokenization, page.tsx line 153:
`text.toLowerCase().split('').map(c => c.charCodeAt(0))`. -/
def tokenize (text : List Char) : List ℕ :=
  (text.map Char.toLower).map Char.toNat

/-- The reset of all neurons and connections, page.tsx lines 156-165. -/
def resetState (ns : List Neuron) (cs : List Connection) : SimState :=
  { neurons := ns.map fun n => { n with active := false, activation := 0 },
    connections := cs.map fun c => { c with active := false } }

/-- `updatedNeurons.find(n => n.id === conn.from)` followed by the
`.active` test, page.tsx lines 196-197. -/
def srcActive (ns : List Neuron) (c : Connection) : Bool :=
  match ns.find? (fun n => decide (n.id = c.fromId)) with
  | some f => f.active
  | none => false

/-- The activation read through the same lookup (0 when absent). -/
def srcActivation (ns : List Neuron) (c : Connection) : ℚ :=
  match ns.find? (fun n => decide (n.id = c.fromId)) with
  | some f => f.activation
  | none => 0

/-- The incoming-edge sum of one unit, page.tsx lines 192-201. -/
def unitSum (ns : List Neuron) (cs : List Connection) (u : Neuron) : ℚ :=
  ((cs.filter fun c => decide (c.toId = u.id))).foldl
    (fun s c => if srcActive ns c then s + srcActivation ns c * c.weight else s) 0

/-- ReLU and storing of the raw activation, page.tsx lines 203-207. -/
def rawUpdate (ns : List Neuron) (cs : List Connection) (u : Neuron) : Neuron :=
  { u with activation := max 0 (unitSum ns cs u) }

/-- Phase 1 of a hidden-layer step: every unit of layer `j` receives its
raw (post-ReLU) activation, and every edge examined by the walk (those
targeting a unit of layer `j`) whose source is active is flagged active,
page.tsx lines 189-208. -/
def rawPhase (j : ℕ) (s : SimState) : SimState :=
  { neurons := s.neurons.map fun n =>
      if n.layer = j then rawUpdate s.neurons s.connections n else n,
    connections := s.connections.map fun c =>
      if (s.neurons.any fun u => decide (u.layer = j) && decide (u.id = c.toId))
          && srcActive s.neurons c
      then { c with active := true } else c }

/-- `Math.ceil(currentLayerNeurons.length * (1 - sparsityLevel))`,
page.tsx line 211. -/
def layerK (sp : ℚ) (len : ℕ) : ℕ :=
  (⌈(len : ℚ) * (1 - sp)⌉).toNat

/-- The descending comparator of page.tsx line 213
(`(a, b) => b.activation - a.activation`, a stable sort). -/
def descBy (a b : Neuron) : Bool :=
  decide (b.activation ≤ a.activation)

/-- The gate outcome of one unit, given the layer sorted descending:
active iff its position in the sorted order is below `k` and its raw
activation exceeds the 0.1 floor; active units are clamped to 1,
inactive units keep their raw activation, page.tsx lines 214-221. -/
def gateOutcome (k : ℕ) (sorted : List Neuron) (n : Neuron) : Neuron :=
  if sorted.findIdx (fun m => decide (m.id = n.id)) < k ∧ 1 / 10 < n.activation then
    { n with active := true, activation := min 1 n.activation }
  else
    { n with active := false }

/-- Phase 2 of a hidden-layer step: the top-k sparsity gate, page.tsx
lines 210-221. -/
def gatePhase (sp : ℚ) (j : ℕ) (s : SimState) : SimState :=
  let layerNs := s.neurons.filter fun n => decide (n.layer = j)
  let k := layerK sp layerNs.length
  let sorted := layerNs.mergeSort descBy
  { s with neurons := s.neurons.map fun n =>
      if n.layer = j then gateOutcome k sorted n else n }

/-- A hidden/output-layer step, page.tsx lines 187-222. -/
def stepHidden (sp : ℚ) (j : ℕ) (s : SimState) : SimState :=
  gatePhase sp j (rawPhase j s)

/-- The input-layer update of one unit at layer position `idx` with the
random counter at `ctr`, page.tsx lines 178-186.  Returns the updated
unit and the new counter (one draw for the stochastic gate, one more for
the rescale when the unit fires). -/
def inputUnit (sp : ℚ) (features : List ℕ) (g : ℕ → ℚ) (idx ctr : ℕ)
    (n : Neuron) : Neuron × ℕ :=
  let featureVal : ℚ := (features.getD (idx % features.length) 0 : ℕ) / 128
  if sp < g ctr then
    ({ n with active := true
              activation := min 1 (featureVal * (1 + g (ctr + 1) * (1 / 2))) },
     ctr + 2)
  else
    ({ n with active := false, activation := featureVal }, ctr + 1)

/-- The input-layer walk over the full neuron list: layer-0 units are
updated in order (each advancing the layer position and the random
counter), all other units are untouched, page.tsx lines 176-186. -/
def stepInputAux (sp : ℚ) (features : List ℕ) (g : ℕ → ℚ) :
    List Neuron → ℕ → ℕ → List Neuron × ℕ
  | [], _, ctr => ([], ctr)
  | n :: rest, idx, ctr =>
    if n.layer = 0 then
      let p := inputUnit sp features g idx ctr n
      let q := stepInputAux sp features g rest (idx + 1) p.2
      (p.1 :: q.1, q.2)
    else
      let q := stepInputAux sp features g rest idx ctr
      (n :: q.1, q.2)

/-- The input-layer step (step 0), page.tsx lines 176-186. -/
def stepInput (sp : ℚ) (features : List ℕ) (g : ℕ → ℚ) (s : SimState) : SimState :=
  { s with neurons := (stepInputAux sp features g s.neurons 0 0).1 }

/-- One iteration of the per-layer loop, page.tsx lines 173-222. -/
def stepLayer (sp : ℚ) (features : List ℕ) (g : ℕ → ℚ) (j : ℕ)
    (s : SimState) : SimState :=
  if j = 0 then stepInput sp features g s else stepHidden sp j s

/-- The state after the first `t` iterations of the loop, starting from
the reset state. -/
def runStateAfter (sp : ℚ) (features : List ℕ) (g : ℕ → ℚ) (s0 : SimState) :
    ℕ → SimState
  | 0 => s0
  | t + 1 => stepLayer sp features g t (runStateAfter sp features g s0 t)

/-- The snapshots pushed by the loop (`setNeurons`/`setConnections`,
page.tsx lines 224-225): one per layer, in layer order. -/
def runSnaps (sp : ℚ) (features : List ℕ) (g : ℕ → ℚ) (s0 : SimState) :
    List SimState :=
  (List.range numLayers).map fun j => runStateAfter sp features g s0 (j + 1)

/-- The summary statistics, page.tsx lines 229-238. -/
structure RunStats where
  active : ℕ
  total : ℕ
  sparsity : ℤ
deriving DecidableEq, Repr

/-- The engine-side state owned by the component: the neuron/connection
arrays, the `isProcessing` re-entrancy flag and the `stats` record. -/
structure EngineState where
  neurons : List Neuron
  connections : List Connection
  isProcessing : Bool
  stats : RunStats
deriving DecidableEq, Repr

/-- `processInput`, page.tsx lines 147-241: the guard (line 148), the
tokenization (line 153), the reset (lines 156-168), the six-step loop
with its per-layer snapshot emissions (lines 173-227), and the final
statistics (lines 229-240).  Returns the new engine state and the list
of snapshots emitted by the loop. -/
def processInput (g : ℕ → ℚ) (sp : ℚ) (text : List Char) (e : EngineState) :
    EngineState × List SimState :=
  if text.isEmpty || e.isProcessing then (e, [])
  else
    let features := tokenize text
    let s0 := resetState e.neurons e.connections
    let snaps := runSnaps sp features g s0
    let sF := runStateAfter sp features g s0 numLayers
    let activeCount := (sF.neurons.filter fun n => n.active).length
    let totalCount := sF.neurons.length
    ({ neurons := sF.neurons, connections := sF.connections,
       isProcessing := false,
       stats := { active := activeCount, total := totalCount,
                  sparsity := round ((1 - (activeCount : ℚ) / totalCount) * 100) } },
     snaps)

/-! ### Generic helper lemmas -/

theorem foldl_branch_sum {α : Type} (P : α → Bool) (f : α → ℚ) :
    ∀ (l : List α) (a : ℚ),
      l.foldl (fun s c => if P c then s + f c else s) a
        = a + ((l.filter P).map f).sum
  | [], a => by simp
  | c :: l, a => by
    by_cases h : P c
    · simp only [List.foldl_cons, if_pos h, List.filter_cons, h, ite_true,
        List.map_cons, List.sum_cons, foldl_branch_sum P f l (a + f c)]
      ring
    · simp only [List.foldl_cons, if_neg h, List.filter_cons, h,
        Bool.false_eq_true, ite_false, foldl_branch_sum P f l a]

/-- Filtering the updated layer out of a layer-local pointwise update
recovers the update applied to the filtered layer. -/
theorem filter_map_ite (f : Neuron → Neuron) (j : ℕ)
    (hf : ∀ n, (f n).layer = n.layer) :
    ∀ ns : List Neuron,
      ((ns.map fun n => if n.layer = j then f n else n).filter
          fun n => decide (n.layer = j))
        = (ns.filter fun n => decide (n.layer = j)).map f
  | [] => by simp
  | n :: ns => by
    by_cases h : n.layer = j
    · simp [h, hf n, filter_map_ite f j hf ns]
    · simp [h, filter_map_ite f j hf ns]

/-- A layer-local pointwise update leaves every other layer's filter
untouched. -/
theorem filter_map_ite_ne (f : Neuron → Neuron) (i j : ℕ)
    (hf : ∀ n, (f n).layer = n.layer) (hij : i ≠ j) :
    ∀ ns : List Neuron,
      ((ns.map fun n => if n.layer = j then f n else n).filter
          fun n => decide (n.layer = i))
        = ns.filter fun n => decide (n.layer = i)
  | [] => by simp
  | n :: ns => by
    rw [List.map_cons, List.filter_cons, List.filter_cons]
    by_cases h : n.layer = j
    · have h1 : ¬ (f n).layer = i := by rw [hf n, h]; exact fun hh => hij hh.symm
      have hn : ¬ n.layer = i := by rw [h]; exact fun hh => hij hh.symm
      rw [if_pos h]
      simp [h1, hn, filter_map_ite_ne f i j hf hij ns]
    · rw [if_neg h]
      by_cases hi : n.layer = i
      · simp [hi, filter_map_ite_ne f i j hf hij ns]
      · simp [hi, filter_map_ite_ne f i j hf hij ns]

/-- `srcActive` is unchanged by a pointwise neuron update that preserves
ids and preserves the `active` flag of every unit carrying the edge's
source id. -/
theorem srcActive_map (ns : List Neuron) (f : Neuron → Neuron) (c : Connection)
    (hid : ∀ n, (f n).id = n.id)
    (h : ∀ n ∈ ns, n.id = c.fromId → (f n).active = n.active) :
    srcActive (ns.map f) c = srcActive ns c := by
  unfold srcActive
  rw [List.find?_map]
  have hcomp : ((fun n => decide (n.id = c.fromId)) ∘ f)
      = fun n => decide (n.id = c.fromId) := funext fun n => by simp [hid n]
  rw [hcomp]
  cases hfind : ns.find? (fun n => decide (n.id = c.fromId)) with
  | none => rfl
  | some n =>
    have hn : n.id = c.fromId := by simpa using List.find?_some hfind
    simp [h n (List.mem_of_find?_eq_some hfind) hn]

/-! ### Input-layer step lemmas -/

theorem inputUnit_id (sp : ℚ) (features : List ℕ) (g : ℕ → ℚ) (idx ctr : ℕ)
    (n : Neuron) : (inputUnit sp features g idx ctr n).1.id = n.id := by
  unfold inputUnit; split <;> rfl

theorem inputUnit_layer (sp : ℚ) (features : List ℕ) (g : ℕ → ℚ) (idx ctr : ℕ)
    (n : Neuron) : (inputUnit sp features g idx ctr n).1.layer = n.layer := by
  unfold inputUnit; split <;> rfl

theorem inputUnit_active (sp : ℚ) (features : List ℕ) (g : ℕ → ℚ) (idx ctr : ℕ)
    (n : Neuron) :
    (inputUnit sp features g idx ctr n).1.active = decide (sp < g ctr) := by
  unfold inputUnit
  by_cases h : sp < g ctr
  · simp [h]
  · simp [h]

theorem inputUnit_ctr (sp : ℚ) (features : List ℕ) (g : ℕ → ℚ) (idx ctr : ℕ)
    (n : Neuron) :
    (inputUnit sp features g idx ctr n).2
      = ctr + (if (inputUnit sp features g idx ctr n).1.active then 2 else 1) := by
  unfold inputUnit
  by_cases h : sp < g ctr
  · simp [h]
  · simp [h]

theorem inputUnit_activation_pos (sp : ℚ) (features : List ℕ) (g : ℕ → ℚ)
    (idx ctr : ℕ) (n : Neuron) (h : sp < g ctr) :
    (inputUnit sp features g idx ctr n).1.activation
      = min 1 (((features.getD (idx % features.length) 0 : ℕ) : ℚ) / 128
          * (1 + g (ctr + 1) * (1 / 2))) := by
  unfold inputUnit
  simp [h]

theorem inputUnit_activation_neg (sp : ℚ) (features : List ℕ) (g : ℕ → ℚ)
    (idx ctr : ℕ) (n : Neuron) (h : ¬ sp < g ctr) :
    (inputUnit sp features g idx ctr n).1.activation
      = ((features.getD (idx % features.length) 0 : ℕ) : ℚ) / 128 := by
  unfold inputUnit
  simp [h]

/-- The input-layer walk restricted to the layer-0 sublist (device used
to index the updated layer positionally). -/
def inputScan (sp : ℚ) (features : List ℕ) (g : ℕ → ℚ) :
    List Neuron → ℕ → ℕ → List Neuron
  | [], _, _ => []
  | n :: L, idx, ctr =>
    (inputUnit sp features g idx ctr n).1 ::
      inputScan sp features g L (idx + 1) (inputUnit sp features g idx ctr n).2

theorem stepInputAux_length (sp : ℚ) (features : List ℕ) (g : ℕ → ℚ) :
    ∀ (ns : List Neuron) (idx ctr : ℕ),
      (stepInputAux sp features g ns idx ctr).1.length = ns.length
  | [], _, _ => rfl
  | n :: ns, idx, ctr => by
    unfold stepInputAux
    by_cases h : n.layer = 0 <;>
      simp [h, stepInputAux_length sp features g ns]

theorem stepInputAux_pair (sp : ℚ) (features : List ℕ) (g : ℕ → ℚ) :
    ∀ (ns : List Neuron) (idx ctr : ℕ),
      (stepInputAux sp features g ns idx ctr).1.map (fun n => (n.id, n.layer))
        = ns.map fun n => (n.id, n.layer)
  | [], _, _ => rfl
  | n :: ns, idx, ctr => by
    unfold stepInputAux
    by_cases h : n.layer = 0
    · simp [h, inputUnit_id, inputUnit_layer, stepInputAux_pair sp features g ns]
    · simp [h, stepInputAux_pair sp features g ns]

theorem stepInputAux_frame (sp : ℚ) (features : List ℕ) (g : ℕ → ℚ) :
    ∀ (ns : List Neuron) (idx ctr p : ℕ) (n : Neuron),
      ns[p]? = some n → n.layer ≠ 0 →
      (stepInputAux sp features g ns idx ctr).1[p]? = some n
  | [], _, _, p, n, hp, _ => by simp at hp
  | m :: ns, idx, ctr, p, n, hp, hn => by
    unfold stepInputAux
    cases p with
    | zero =>
      simp only [List.getElem?_cons_zero, Option.some_inj] at hp
      subst hp
      simp [hn]
    | succ q =>
      simp only [List.getElem?_cons_succ] at hp
      by_cases h : m.layer = 0 <;>
        simp [h, stepInputAux_frame sp features g ns _ _ q n hp hn]

theorem stepInputAux_filter (sp : ℚ) (features : List ℕ) (g : ℕ → ℚ) :
    ∀ (ns : List Neuron) (idx ctr : ℕ),
      (stepInputAux sp features g ns idx ctr).1.filter (fun n => decide (n.layer = 0))
        = inputScan sp features g (ns.filter fun n => decide (n.layer = 0)) idx ctr
  | [], _, _ => rfl
  | n :: ns, idx, ctr => by
    unfold stepInputAux
    by_cases h : n.layer = 0
    · have h1 : (inputUnit sp features g idx ctr n).1.layer = 0 := by
        rw [inputUnit_layer]; exact h
      simp only [h, if_pos, List.filter_cons, h1, decide_eq_true_eq, ite_true,
        decide_true_eq_true]
      rw [stepInputAux_filter sp features g ns]
      simp [inputScan, h]
    · simp [h, stepInputAux_filter sp features g ns]

theorem inputScan_length (sp : ℚ) (features : List ℕ) (g : ℕ → ℚ) :
    ∀ (L : List Neuron) (idx ctr : ℕ),
      (inputScan sp features g L idx ctr).length = L.length
  | [], _, _ => rfl
  | n :: L, idx, ctr => by
    unfold inputScan
    simp [inputScan_length sp features g L]

theorem inputScan_get (sp : ℚ) (features : List ℕ) (g : ℕ → ℚ) :
    ∀ (L : List Neuron) (idx ctr p : ℕ) (n : Neuron),
      L[p]? = some n →
      (inputScan sp features g L idx ctr)[p]?
        = some ((inputUnit sp features g (idx + p)
            (ctr + p + ((inputScan sp features g L idx ctr).take p).countP
              (fun x => x.active)) n).1)
  | [], _, _, p, n, hp => by simp at hp
  | m :: L, idx, ctr, p, n, hp => by
    cases p with
    | zero =>
      simp only [List.getElem?_cons_zero, Option.some_inj] at hp
      subst hp
      simp [inputScan]
    | succ q =>
      simp only [List.getElem?_cons_succ] at hp
      have ih := inputScan_get sp features g L (idx + 1)
        (inputUnit sp features g idx ctr m).2 q n hp
      unfold inputScan
      simp only [List.getElem?_cons_succ, List.take_succ_cons, List.countP_cons]
      rw [ih, inputUnit_ctr]
      have harg : ∀ (a b a' b' : ℕ), a = a' → b = b' →
          (inputUnit sp features g a b n).1 = (inputUnit sp features g a' b' n).1 := by
        intro a b a' b' h1 h2; rw [h1, h2]
      by_cases h : (inputUnit sp features g idx ctr m).1.active
      · simp only [h, ite_true]
        exact congrArg some (harg _ _ _ _ (by omega) (by omega))
      · simp only [h, Bool.false_eq_true, ite_false]
        exact congrArg some (harg _ _ _ _ (by omega) (by omega))

/-! ### Hidden-step and run-level lemmas -/

theorem rawUpdate_id (ns : List Neuron) (cs : List Connection) (u : Neuron) :
    (rawUpdate ns cs u).id = u.id := rfl

theorem rawUpdate_layer (ns : List Neuron) (cs : List Connection) (u : Neuron) :
    (rawUpdate ns cs u).layer = u.layer := rfl

theorem rawUpdate_active (ns : List Neuron) (cs : List Connection) (u : Neuron) :
    (rawUpdate ns cs u).active = u.active := rfl

theorem gateOutcome_id (k : ℕ) (sorted : List Neuron) (n : Neuron) :
    (gateOutcome k sorted n).id = n.id := by
  unfold gateOutcome; split <;> rfl

theorem gateOutcome_layer (k : ℕ) (sorted : List Neuron) (n : Neuron) :
    (gateOutcome k sorted n).layer = n.layer := by
  unfold gateOutcome; split <;> rfl

/-- Pointwise layer-local updates preserve the (id, layer) skeleton. -/
theorem map_pair_map_ite (ns : List Neuron) (f : Neuron → Neuron) (j : ℕ)
    (hid : ∀ n, (f n).id = n.id) (hlay : ∀ n, (f n).layer = n.layer) :
    ((ns.map fun n => if n.layer = j then f n else n).map fun n => (n.id, n.layer))
      = ns.map fun n => (n.id, n.layer) := by
  rw [List.map_map]
  apply List.map_congr_left
  intro n _
  by_cases h : n.layer = j <;> simp [h, hid, hlay]

theorem stepHidden_neurons (sp : ℚ) (j : ℕ) (s : SimState) :
    (stepHidden sp j s).neurons
      = ((rawPhase j s).neurons.map fun n =>
          if n.layer = j then
            gateOutcome
              (layerK sp ((rawPhase j s).neurons.filter
                (fun n => decide (n.layer = j))).length)
              (((rawPhase j s).neurons.filter
                (fun n => decide (n.layer = j))).mergeSort descBy) n
          else n) := rfl

theorem stepHidden_connections (sp : ℚ) (j : ℕ) (s : SimState) :
    (stepHidden sp j s).connections = (rawPhase j s).connections := rfl

theorem stepHidden_pair (sp : ℚ) (j : ℕ) (s : SimState) :
    (stepHidden sp j s).neurons.map (fun n => (n.id, n.layer))
      = s.neurons.map fun n => (n.id, n.layer) := by
  rw [stepHidden_neurons, map_pair_map_ite _ _ _ (gateOutcome_id _ _)
    (gateOutcome_layer _ _)]
  exact map_pair_map_ite _ _ _ (rawUpdate_id _ _) (rawUpdate_layer _ _)

theorem stepInput_pair (sp : ℚ) (features : List ℕ) (g : ℕ → ℚ) (s : SimState) :
    (stepInput sp features g s).neurons.map (fun n => (n.id, n.layer))
      = s.neurons.map fun n => (n.id, n.layer) :=
  stepInputAux_pair sp features g s.neurons 0 0

theorem stepLayer_pair (sp : ℚ) (features : List ℕ) (g : ℕ → ℚ) (j : ℕ)
    (s : SimState) :
    (stepLayer sp features g j s).neurons.map (fun n => (n.id, n.layer))
      = s.neurons.map fun n => (n.id, n.layer) := by
  unfold stepLayer
  by_cases h : j = 0
  · rw [if_pos h]; exact stepInput_pair sp features g s
  · rw [if_neg h]; exact stepHidden_pair sp j s

theorem runStateAfter_pair (sp : ℚ) (features : List ℕ) (g : ℕ → ℚ)
    (s0 : SimState) :
    ∀ t : ℕ,
      (runStateAfter sp features g s0 t).neurons.map (fun n => (n.id, n.layer))
        = s0.neurons.map fun n => (n.id, n.layer)
  | 0 => rfl
  | t + 1 => by
    show (stepLayer sp features g t _).neurons.map _ = _
    rw [stepLayer_pair]
    exact runStateAfter_pair sp features g s0 t

/-- Positional frame for a pointwise layer-local update. -/
theorem getElem?_map_ite_frame (ns : List Neuron) (f : Neuron → Neuron)
    (j p : ℕ) (n : Neuron) (h : ns[p]? = some n) (hn : n.layer ≠ j) :
    (ns.map fun m => if m.layer = j then f m else m)[p]? = some n := by
  rw [List.getElem?_map, h]
  simp [hn]

theorem stepHidden_frame (sp : ℚ) (j p : ℕ) (s : SimState) (n : Neuron)
    (h : s.neurons[p]? = some n) (hn : n.layer ≠ j) :
    (stepHidden sp j s).neurons[p]? = some n := by
  rw [stepHidden_neurons]
  exact getElem?_map_ite_frame _ _ _ _ _ (getElem?_map_ite_frame _ _ _ _ _ h hn) hn

theorem stepLayer_frame (sp : ℚ) (features : List ℕ) (g : ℕ → ℚ) (j p : ℕ)
    (s : SimState) (n : Neuron) (h : s.neurons[p]? = some n)
    (hn : n.layer ≠ j) :
    (stepLayer sp features g j s).neurons[p]? = some n := by
  unfold stepLayer
  by_cases hj : j = 0
  · subst hj
    rw [if_pos rfl]
    exact stepInputAux_frame sp features g s.neurons 0 0 p n h hn
  · rw [if_neg hj]
    exact stepHidden_frame sp j p s n h hn

/-- Once a layer has been processed, its units never change again. -/
theorem runStateAfter_frozen (sp : ℚ) (features : List ℕ) (g : ℕ → ℚ)
    (s0 : SimState) (t : ℕ) :
    ∀ (d p : ℕ) (n : Neuron),
      (runStateAfter sp features g s0 t).neurons[p]? = some n → n.layer < t →
      (runStateAfter sp features g s0 (t + d)).neurons[p]? = some n
  | 0, _, _, h, _ => h
  | d + 1, p, n, h, hn => by
    have ih := runStateAfter_frozen sp features g s0 t d p n h hn
    show (stepLayer sp features g (t + d) _).neurons[p]? = some n
    exact stepLayer_frame sp features g (t + d) p _ n ih (by omega)

/-- Layers not yet processed still hold their reset value. -/
theorem runStateAfter_unprocessed (sp : ℚ) (features : List ℕ) (g : ℕ → ℚ)
    (s0 : SimState) :
    ∀ (t p : ℕ) (n : Neuron),
      s0.neurons[p]? = some n → t ≤ n.layer →
      (runStateAfter sp features g s0 t).neurons[p]? = some n
  | 0, _, _, h, _ => h
  | t + 1, p, n, h, hn => by
    have ih := runStateAfter_unprocessed sp features g s0 t p n h (by omega)
    show (stepLayer sp features g t _).neurons[p]? = some n
    exact stepLayer_frame sp features g t p _ n ih (by omega)

theorem stepInput_connections (sp : ℚ) (features : List ℕ) (g : ℕ → ℚ)
    (s : SimState) :
    (stepInput sp features g s).connections = s.connections := rfl

/-- The from/to/weight skeleton of every connection, at its position, is
invariant under a simulation step. -/
theorem stepLayer_connSkel (sp : ℚ) (features : List ℕ) (g : ℕ → ℚ) (j : ℕ)
    (s : SimState) :
    (stepLayer sp features g j s).connections.map
        (fun c => (c.fromId, c.toId, c.weight))
      = s.connections.map fun c => (c.fromId, c.toId, c.weight) := by
  unfold stepLayer
  by_cases hj : j = 0
  · subst hj
    rw [if_pos rfl]
    rfl
  · rw [if_neg hj, stepHidden_connections]
    show (s.connections.map _).map _ = _
    rw [List.map_map]
    apply List.map_congr_left
    intro c _
    show ((if ((s.neurons.any fun u => decide (u.layer = j) && decide (u.id = c.toId))
            && srcActive s.neurons c) = true
          then ({ c with active := true } : Connection) else c).fromId,
        (if ((s.neurons.any fun u => decide (u.layer = j) && decide (u.id = c.toId))
            && srcActive s.neurons c) = true
          then ({ c with active := true } : Connection) else c).toId,
        (if ((s.neurons.any fun u => decide (u.layer = j) && decide (u.id = c.toId))
            && srcActive s.neurons c) = true
          then ({ c with active := true } : Connection) else c).weight)
      = (c.fromId, c.toId, c.weight)
    by_cases h : ((s.neurons.any fun u => decide (u.layer = j) && decide (u.id = c.toId))
        && srcActive s.neurons c) = true
    · rw [if_pos h]
    · rw [if_neg h]

theorem runStateAfter_connSkel (sp : ℚ) (features : List ℕ) (g : ℕ → ℚ)
    (s0 : SimState) :
    ∀ t : ℕ,
      (runStateAfter sp features g s0 t).connections.map
          (fun c => (c.fromId, c.toId, c.weight))
        = s0.connections.map fun c => (c.fromId, c.toId, c.weight)
  | 0 => rfl
  | t + 1 => by
    show (stepLayer sp features g t _).connections.map _ = _
    rw [stepLayer_connSkel]
    exact runStateAfter_connSkel sp features g s0 t

theorem runSnaps_getElem (sp : ℚ) (features : List ℕ) (g : ℕ → ℚ)
    (s0 : SimState) (j : ℕ) (hj : j < numLayers) :
    (runSnaps sp features g s0)[j]?
      = some (runStateAfter sp features g s0 (j + 1)) := by
  unfold runSnaps
  rw [List.getElem?_map, List.getElem?_range hj]
  rfl

theorem processInput_run (g : ℕ → ℚ) (sp : ℚ) (text : List Char)
    (e : EngineState) (ht : text ≠ []) (he : e.isProcessing = false) :
    (processInput g sp text e).2
      = runSnaps sp (tokenize text) g (resetState e.neurons e.connections) := by
  unfold processInput
  have h1 : text.isEmpty = false := by
    cases text with
    | nil => exact absurd rfl ht
    | cons a l => rfl
  rw [h1, he]
  rfl

/-! ### Top-k gate lemmas -/

theorem gateOutcome_active_iff (k : ℕ) (sorted : List Neuron) (n : Neuron) :
    (gateOutcome k sorted n).active = true
      ↔ (sorted.findIdx (fun m => decide (m.id = n.id)) < k
          ∧ 1 / 10 < n.activation) := by
  unfold gateOutcome
  split
  · next h => simpa using h
  · next h => simpa using h

theorem gateOutcome_inactive_activation (k : ℕ) (sorted : List Neuron)
    (n : Neuron) (h : (gateOutcome k sorted n).active = false) :
    (gateOutcome k sorted n).activation = n.activation := by
  by_cases hc : sorted.findIdx (fun m => decide (m.id = n.id)) < k
      ∧ 1 / 10 < n.activation
  · unfold gateOutcome at h
    rw [if_pos hc] at h
    simp at h
  · unfold gateOutcome
    rw [if_neg hc]

theorem gateOutcome_active_activation (k : ℕ) (sorted : List Neuron)
    (n : Neuron) (h : (gateOutcome k sorted n).active = true) :
    (gateOutcome k sorted n).activation = min 1 n.activation := by
  by_cases hc : sorted.findIdx (fun m => decide (m.id = n.id)) < k
      ∧ 1 / 10 < n.activation
  · unfold gateOutcome
    rw [if_pos hc]
  · unfold gateOutcome at h
    rw [if_neg hc] at h
    simp at h

/-- In a list whose elements have pairwise distinct ids, at most `k`
elements can sit at a sorted position below `k`; hence the gate
activates at most `k` units of the layer. -/
theorem countP_gate_le (k : ℕ) (L : List Neuron)
    (hnd : (L.map fun n => n.id).Nodup) :
    L.countP (fun n => (gateOutcome k (L.mergeSort descBy) n).active) ≤ k := by
  have hperm : (L.mergeSort descBy).Perm L := List.mergeSort_perm L descBy
  set S := L.mergeSort descBy with hS
  rw [← hperm.countP_eq]
  have hndS : (S.map fun n => n.id).Nodup := by
    have hmp := hperm.map fun n => n.id
    exact (hmp.nodup_iff).2 hnd
  set p : Neuron → Bool := fun n => (gateOutcome k S n).active with hp
  set φ : Neuron → ℕ := fun n => S.findIdx fun m => decide (m.id = n.id) with hφ
  have hφlt : ∀ n ∈ S, φ n < S.length := by
    intro n hn
    exact List.findIdx_lt_length.2 ⟨n, hn, by simp⟩
  have hφid : ∀ n ∈ S, ∃ m, S[φ n]? = some m ∧ m.id = n.id := by
    intro n hn
    have hlt := hφlt n hn
    refine ⟨S[φ n], List.getElem?_eq_getElem hlt, ?_⟩
    have := @List.findIdx_getElem _ (fun m => decide (m.id = n.id)) S hlt
    simpa using this
  have hinj : ∀ a ∈ S, ∀ b ∈ S, φ a = φ b → a = b := by
    intro a ha b hb hab
    rcases hφid a ha with ⟨ma, hma, hma2⟩
    rcases hφid b hb with ⟨mb, hmb, hmb2⟩
    rw [hab] at hma
    rw [hma] at hmb
    have hm : ma = mb := Option.some_inj.1 hmb
    subst hm
    have hid : a.id = b.id := by rw [← hma2, hmb2]
    exact List.inj_on_of_nodup_map hndS ha hb hid
  set F := S.filter p with hF
  have hFsub : ∀ n ∈ F, n ∈ S := fun n hn => List.mem_of_mem_filter hn
  have hFk : ∀ n ∈ F, φ n < k := by
    intro n hn
    have hpn : p n = true := List.of_mem_filter hn
    exact ((gateOutcome_active_iff k S n).1 hpn).1
  have hFnd : F.Nodup :=
    List.Nodup.filter p (List.Nodup.of_map _ hndS)
  have hmapnd : (F.map φ).Nodup := by
    refine List.Nodup.map_on ?_ hFnd
    intro a ha b hb hab
    exact hinj a (hFsub a ha) b (hFsub b hb) hab
  have hsub : (F.map φ).toFinset ⊆ Finset.range k := by
    intro x hx
    rw [List.mem_toFinset] at hx
    rcases List.mem_map.1 hx with ⟨n, hn, rfl⟩
    exact Finset.mem_range.2 (hFk n hn)
  have hcard : (F.map φ).length ≤ k := by
    rw [← List.toFinset_card_of_nodup hmapnd]
    simpa using Finset.card_le_card hsub
  rw [List.countP_eq_length_filter]
  rw [List.length_map] at hcard
  exact hcard

/-- The count bound transported to the gate phase applied to a state. -/
theorem gatePhase_countP_le (sp : ℚ) (j : ℕ) (s : SimState)
    (hnd : (s.neurons.map fun n => n.id).Nodup) :
    (((gatePhase sp j s).neurons.filter fun n => decide (n.layer = j)).countP
        fun n => n.active)
      ≤ layerK sp ((s.neurons.filter fun n => decide (n.layer = j)).length) := by
  have hfil : ((gatePhase sp j s).neurons.filter fun n => decide (n.layer = j))
      = ((s.neurons.filter fun n => decide (n.layer = j)).map
          (gateOutcome
            (layerK sp ((s.neurons.filter fun n => decide (n.layer = j))).length)
            ((s.neurons.filter fun n => decide (n.layer = j)).mergeSort descBy))) :=
    filter_map_ite _ j (gateOutcome_layer _ _) s.neurons
  rw [hfil, List.countP_map]
  have hndL : ((s.neurons.filter fun n => decide (n.layer = j)).map
      fun n => n.id).Nodup := by
    refine List.Sublist.nodup ?_ hnd
    exact List.Sublist.map _ (List.filter_sublist s.neurons)
  exact countP_gate_le _ _ hndL

/-! ### Weighted-sum, reset and source-lookup lemmas -/

/-- The fold of page.tsx lines 195-201 equals the sum over the incoming
edges whose source unit is active. -/
theorem unitSum_eq (ns : List Neuron) (cs : List Connection) (u : Neuron) :
    unitSum ns cs u
      = (((cs.filter fun c => decide (c.toId = u.id)).filter
            fun c => srcActive ns c).map
          fun c => srcActivation ns c * c.weight).sum := by
  unfold unitSum
  rw [foldl_branch_sum (fun c => srcActive ns c)
    (fun c => srcActivation ns c * c.weight) _ 0]
  rw [zero_add]

theorem rawPhase_neurons (j : ℕ) (s : SimState) :
    (rawPhase j s).neurons
      = s.neurons.map fun n =>
          if n.layer = j then rawUpdate s.neurons s.connections n else n := rfl

theorem rawPhase_connections (j : ℕ) (s : SimState) :
    (rawPhase j s).connections
      = s.connections.map fun c =>
          if (s.neurons.any fun u => decide (u.layer = j) && decide (u.id = c.toId))
              && srcActive s.neurons c
          then { c with active := true } else c := rfl

theorem srcActive_reset (ns : List Neuron) (cs : List Connection)
    (c : Connection) : srcActive (resetState ns cs).neurons c = false := by
  unfold srcActive resetState
  rw [List.find?_map]
  have hcomp : ((fun n => decide (n.id = c.fromId))
        ∘ fun (n : Neuron) => ({ n with active := false, activation := 0 } : Neuron))
      = fun (n : Neuron) => decide (n.id = c.fromId) := by
    funext n
    rfl
  rw [hcomp]
  cases ns.find? fun n => decide (n.id = c.fromId) <;> rfl

theorem resetState_mem (ns : List Neuron) (cs : List Connection) (n : Neuron)
    (h : n ∈ (resetState ns cs).neurons) : n.active = false ∧ n.activation = 0 := by
  unfold resetState at h
  rcases List.mem_map.1 h with ⟨n0, _, rfl⟩
  exact ⟨rfl, rfl⟩

/-- `srcActive` is unchanged by a layer-local pointwise update whose
layer is unrelated to the source of the edge. -/
theorem srcActive_map_ite (ns : List Neuron) (f : Neuron → Neuron) (j : ℕ)
    (c : Connection) (hid : ∀ n, (f n).id = n.id)
    (h : ∀ n ∈ ns, n.id = c.fromId → n.layer ≠ j) :
    srcActive (ns.map fun n => if n.layer = j then f n else n) c
      = srcActive ns c := by
  apply srcActive_map
  · intro n
    by_cases hh : n.layer = j <;> simp [hh, hid]
  · intro n hn hni
    have := h n hn hni
    simp [this]

theorem srcActive_rawPhase (j : ℕ) (s : SimState) (c : Connection) :
    srcActive (rawPhase j s).neurons c = srcActive s.neurons c := by
  rw [rawPhase_neurons]
  apply srcActive_map
  · intro n
    by_cases hh : n.layer = j <;> simp [hh, rawUpdate_id]
  · intro n _ _
    by_cases hh : n.layer = j <;> simp [hh, rawUpdate_active]

theorem srcActive_stepHidden (sp : ℚ) (j : ℕ) (s : SimState) (c : Connection)
    (h : ∀ n ∈ s.neurons, n.id = c.fromId → n.layer ≠ j) :
    srcActive (stepHidden sp j s).neurons c = srcActive s.neurons c := by
  have h2 : ∀ n ∈ (rawPhase j s).neurons, n.id = c.fromId → n.layer ≠ j := by
    rw [rawPhase_neurons]
    intro n hn hni
    rcases List.mem_map.1 hn with ⟨n0, hn0, rfl⟩
    have hid0 : (if n0.layer = j then rawUpdate s.neurons s.connections n0
        else n0).id = n0.id := by
      by_cases hb : n0.layer = j <;> simp [hb, rawUpdate_id]
    have hlay0 : (if n0.layer = j then rawUpdate s.neurons s.connections n0
        else n0).layer = n0.layer := by
      by_cases hb : n0.layer = j <;> simp [hb, rawUpdate_layer]
    rw [hid0] at hni
    rw [hlay0]
    exact h n0 hn0 hni
  have e1 : srcActive (stepHidden sp j s).neurons c
      = srcActive (rawPhase j s).neurons c := by
    rw [stepHidden_neurons]
    exact srcActive_map_ite _ _ _ _ (gateOutcome_id _ _) h2
  rw [e1, srcActive_rawPhase]

/-- The `.some(u => u.layer === j && u.id === c.to)` guard of the edge
walk decides exactly whether the edge targets layer `j`, on any state
whose units carry their layer in their id and whose edge targets
exist. -/
theorem any_target_iff (ns : List Neuron) (c : Connection) (j : ℕ)
    (hlay : ∀ n ∈ ns, n.id.1 = n.layer)
    (hex : ∃ v ∈ ns, v.id = c.toId) :
    (ns.any fun u => decide (u.layer = j) && decide (u.id = c.toId))
      = decide (c.toId.1 = j) := by
  by_cases h : c.toId.1 = j
  · rcases hex with ⟨v, hv, hvid⟩
    have hvl : v.layer = j := by
      rw [← hlay v hv, hvid, h]
    simp only [h, decide_true_eq_true]
    rw [List.any_eq_true]
    exact ⟨v, hv, by simp [hvl, hvid]⟩
  · simp only [h, decide_false_eq_false]
    rw [List.any_eq_false]
    intro u hu
    simp only [Bool.and_eq_true, decide_eq_true_eq, not_and]
    intro hul huid
    apply h
    rw [← huid, hlay u hu]
    exact hul

/-- Membership transfer through the run: every unit of a reached state
corresponds to an initial unit with the same id and layer. -/
theorem runStateAfter_mem_pair (sp : ℚ) (features : List ℕ) (g : ℕ → ℚ)
    (s0 : SimState) (t : ℕ) (n : Neuron)
    (hn : n ∈ (runStateAfter sp features g s0 t).neurons) :
    ∃ n0 ∈ s0.neurons, n.id = n0.id ∧ n.layer = n0.layer := by
  have hpair := runStateAfter_pair sp features g s0 t
  have : (n.id, n.layer) ∈ s0.neurons.map fun m => (m.id, m.layer) := by
    rw [← hpair]
    exact List.mem_map.2 ⟨n, hn, rfl⟩
  rcases List.mem_map.1 this with ⟨n0, hn0, heq⟩
  have h1 := congrArg Prod.fst heq
  have h2 := congrArg Prod.snd heq
  exact ⟨n0, hn0, h1.symm, h2.symm⟩

theorem runStateAfter_ids (sp : ℚ) (features : List ℕ) (g : ℕ → ℚ)
    (s0 : SimState) (t : ℕ) :
    (runStateAfter sp features g s0 t).neurons.map (fun n => n.id)
      = s0.neurons.map fun n => n.id := by
  have hpair := congrArg (List.map Prod.fst) (runStateAfter_pair sp features g s0 t)
  simpa [List.map_map, Function.comp] using hpair

theorem resetState_pair (ns : List Neuron) (cs : List Connection) :
    (resetState ns cs).neurons.map (fun n => (n.id, n.layer))
      = ns.map fun n => (n.id, n.layer) := by
  unfold resetState
  rw [List.map_map]
  rfl

theorem resetState_ids (ns : List Neuron) (cs : List Connection) :
    (resetState ns cs).neurons.map (fun n => n.id) = ns.map fun n => n.id := by
  unfold resetState
  rw [List.map_map]
  rfl

/-! ### Edge-activity invariant -/

theorem srcActive_eq_of_fromId (ns : List Neuron) (c c' : Connection)
    (h : c.fromId = c'.fromId) : srcActive ns c = srcActive ns c' := by
  unfold srcActive
  rw [h]

theorem resetState_mem_pair (ns : List Neuron) (cs : List Connection)
    (n : Neuron) (h : n ∈ (resetState ns cs).neurons) :
    ∃ n0 ∈ ns, n.id = n0.id ∧ n.layer = n0.layer := by
  unfold resetState at h
  rcases List.mem_map.1 h with ⟨n0, hn0, rfl⟩
  exact ⟨n0, hn0, rfl, rfl⟩

theorem runStateAfter_conn_skel_mem (sp : ℚ) (features : List ℕ) (g : ℕ → ℚ)
    (s0 : SimState) (t : ℕ) (c : Connection)
    (hc : c ∈ (runStateAfter sp features g s0 t).connections) :
    ∃ c0 ∈ s0.connections,
      c.fromId = c0.fromId ∧ c.toId = c0.toId ∧ c.weight = c0.weight := by
  have hskel := runStateAfter_connSkel sp features g s0 t
  have hm : (c.fromId, c.toId, c.weight)
      ∈ s0.connections.map fun c => (c.fromId, c.toId, c.weight) := by
    rw [← hskel]
    exact List.mem_map.2 ⟨c, hc, rfl⟩
  rcases List.mem_map.1 hm with ⟨c0, hc0, heq⟩
  refine ⟨c0, hc0, ?_, ?_, ?_⟩
  · exact (congrArg (fun x => x.1) heq).symm
  · exact (congrArg (fun x => x.2.1) heq).symm
  · exact (congrArg (fun x => x.2.2) heq).symm

theorem resetState_conn_mem (ns : List Neuron) (cs : List Connection)
    (c : Connection) (hc : c ∈ (resetState ns cs).connections) :
    (∃ c0 ∈ cs, c.fromId = c0.fromId ∧ c.toId = c0.toId) ∧ c.active = false := by
  unfold resetState at hc
  rcases List.mem_map.1 hc with ⟨c0, hc0, rfl⟩
  exact ⟨⟨c0, hc0, rfl, rfl⟩, rfl⟩

/-- Units of any reached state carry their layer in their id whenever
the initial units do. -/
theorem runStateAfter_hlay (sp : ℚ) (features : List ℕ) (g : ℕ → ℚ)
    (ns : List Neuron) (cs : List Connection)
    (hlay : ∀ n ∈ ns, n.id.1 = n.layer) (t : ℕ) :
    ∀ n ∈ (runStateAfter sp features g (resetState ns cs) t).neurons,
      n.id.1 = n.layer := by
  intro n hn
  rcases runStateAfter_mem_pair sp features g _ t n hn with ⟨n1, hn1, hid, hl⟩
  rcases resetState_mem_pair ns cs n1 hn1 with ⟨n0, hn0, hid0, hl0⟩
  rw [hid, hl, hid0, hl0]
  exact hlay n0 hn0

/-- Any id present among the initial units is present, as the id of some
unit, in every reached state. -/
theorem runStateAfter_id_mem (sp : ℚ) (features : List ℕ) (g : ℕ → ℚ)
    (ns : List Neuron) (cs : List Connection) (a : NId)
    (ha : ∃ v ∈ ns, v.id = a) (t : ℕ) :
    ∃ v ∈ (runStateAfter sp features g (resetState ns cs) t).neurons,
      v.id = a := by
  have h1 : a ∈ ns.map fun n => n.id := by
    rcases ha with ⟨v, hv, hva⟩
    exact List.mem_map.2 ⟨v, hv, hva⟩
  have h2 : a ∈ (runStateAfter sp features g (resetState ns cs) t).neurons.map
      fun n => n.id := by
    rw [runStateAfter_ids, resetState_ids]
    exact h1
  rcases List.mem_map.1 h2 with ⟨v, hv, hva⟩
  exact ⟨v, hv, hva⟩

/-- The central edge-activity invariant: after `t` loop iterations an
edge is active exactly when it targets an already-processed layer and
its source unit is currently active. -/
theorem conn_invariant (sp : ℚ) (features : List ℕ) (g : ℕ → ℚ)
    (ns : List Neuron) (cs : List Connection)
    (hlay : ∀ n ∈ ns, n.id.1 = n.layer)
    (hadj : ∀ c ∈ cs, c.fromId.1 + 1 = c.toId.1)
    (hex : ∀ c ∈ cs, ∃ v ∈ ns, v.id = c.toId) :
    ∀ (t p : ℕ) (c : Connection),
      (runStateAfter sp features g (resetState ns cs) t).connections[p]?
        = some c →
      c.active = (decide (c.toId.1 < t)
        && srcActive (runStateAfter sp features g (resetState ns cs) t).neurons c)
  | 0, p, c, hp => by
    have hc : c ∈ (resetState ns cs).connections :=
      List.getElem?_mem hp
    have := (resetState_conn_mem ns cs c hc).2
    simp [this]
  | t + 1, p, c, hp => by
    by_cases ht : t = 0
    · subst ht
      have hstep : runStateAfter sp features g (resetState ns cs) 1
          = stepInput sp features g (resetState ns cs) := by
        show stepLayer sp features g 0 (resetState ns cs) = _
        unfold stepLayer
        rw [if_pos rfl]
      rw [hstep] at hp ⊢
      rw [stepInput_connections] at hp
      have hc : c ∈ (resetState ns cs).connections := List.getElem?_mem hp
      rcases resetState_conn_mem ns cs c hc with ⟨⟨c0, hc0, _, hto⟩, hact⟩
      have h1 : c0.fromId.1 + 1 = c0.toId.1 := hadj c0 hc0
      have h2 : ¬ c.toId.1 < 1 := by rw [hto]; omega
      rw [hact, decide_eq_false h2, Bool.false_and]
    · have ht1 : 1 ≤ t := Nat.one_le_iff_ne_zero.2 ht
      have hstep : runStateAfter sp features g (resetState ns cs) (t + 1)
          = stepHidden sp t (runStateAfter sp features g (resetState ns cs) t) := by
        show stepLayer sp features g t _ = _
        unfold stepLayer
        rw [if_neg ht]
      rw [hstep] at hp ⊢
      rw [stepHidden_connections, rawPhase_connections, List.getElem?_map] at hp
      cases hc' : (runStateAfter sp features g (resetState ns cs) t).connections[p]? with
      | none => rw [hc'] at hp; exact absurd hp (by simp)
      | some c' =>
        rw [hc'] at hp
        simp only [Option.map_some'] at hp
        -- facts about the prior edge record
        have hc'mem : c' ∈ (runStateAfter sp features g
            (resetState ns cs) t).connections := List.getElem?_mem hc'
        rcases runStateAfter_conn_skel_mem sp features g _ t c' hc'mem
          with ⟨c1, hc1, hf1, ht1', _⟩
        rcases resetState_conn_mem ns cs c1 hc1 with ⟨⟨c0, hc0, hf0, ht0⟩, _⟩
        have hadj' : c'.fromId.1 + 1 = c'.toId.1 := by
          rw [hf1, ht1', hf0, ht0]
          exact hadj c0 hc0
        have hex' : ∃ v ∈ (runStateAfter sp features g
            (resetState ns cs) t).neurons, v.id = c'.toId := by
          apply runStateAfter_id_mem
          rw [ht1', ht0]
          exact hex c0 hc0
        have hlay_t := runStateAfter_hlay sp features g ns cs hlay t
        have hguard := any_target_iff
          (runStateAfter sp features g (resetState ns cs) t).neurons c' t
          hlay_t hex'
        rw [hguard] at hp
        have hIH := conn_invariant sp features g ns cs hlay hadj hex t p c' hc'
        -- source-layer preservation across the step, whenever the edge
        -- targets a processed-or-current layer
        have hpres : c'.toId.1 < t + 1 →
            srcActive (stepHidden sp t (runStateAfter sp features g
              (resetState ns cs) t)).neurons c'
              = srcActive (runStateAfter sp features g
                (resetState ns cs) t).neurons c' := by
          intro hlt
          apply srcActive_stepHidden
          intro n hn hni
          have := hlay_t n hn
          rw [← this, hni]
          omega
        by_cases hb : (decide (c'.toId.1 = t)
            && srcActive (runStateAfter sp features g
              (resetState ns cs) t).neurons c') = true
        · rw [if_pos hb] at hp
          have hpc := Option.some_inj.1 hp
          subst hpc
          have hand := hb
          rw [Bool.and_eq_true] at hand
          rcases hand with ⟨hg, hsrc⟩
          have hto_t : c'.toId.1 = t := of_decide_eq_true hg
          have hsrceq : srcActive (stepHidden sp t (runStateAfter sp features g
              (resetState ns cs) t)).neurons ({ c' with active := true })
              = srcActive (runStateAfter sp features g
                (resetState ns cs) t).neurons c' := by
            rw [srcActive_eq_of_fromId _ ({ c' with active := true }) c' rfl]
            exact hpres (by omega)
          show true = _
          rw [hsrceq, hsrc, Bool.and_true]
          have : c'.toId.1 < t + 1 := by omega
          rw [decide_eq_true this]
        · rw [if_neg hb] at hp
          have hpc := Option.some_inj.1 hp
          subst hpc
          rw [hIH]
          by_cases hlt : c'.toId.1 < t + 1
          · rw [hpres hlt]
            by_cases hlt2 : c'.toId.1 < t
            · rw [decide_eq_true hlt, decide_eq_true hlt2]
            · have hto_t : c'.toId.1 = t := by omega
              have hsrcF : srcActive (runStateAfter sp features g
                  (resetState ns cs) t).neurons c' = false := by
                cases hx : srcActive (runStateAfter sp features g
                    (resetState ns cs) t).neurons c' with
                | false => rfl
                | true =>
                  exact absurd (by rw [hx, decide_eq_true hto_t]; rfl) hb
              rw [hsrcF, Bool.and_false, Bool.and_false]
          · have hlt2 : ¬ c'.toId.1 < t := by omega
            rw [decide_eq_false hlt, decide_eq_false hlt2, Bool.false_and,
              Bool.false_and]

/-! ### Topology builder lemmas -/

theorem layerNeurons_length (i c : ℕ) : (layerNeurons i c).length = c := by
  simp [layerNeurons]

theorem mem_layerNeurons (i c : ℕ) (n : Neuron) :
    n ∈ layerNeurons i c
      ↔ ∃ t, t < c ∧ n = ⟨(i, t), false, 0, i⟩ := by
  unfold layerNeurons
  constructor
  · intro h
    rcases List.mem_map.1 h with ⟨t, ht, rfl⟩
    exact ⟨t, List.mem_range.1 ht, rfl⟩
  · rintro ⟨t, ht, rfl⟩
    exact List.mem_map.2 ⟨t, List.mem_range.2 ht, rfl⟩

theorem mem_buildNeuronsFrom :
    ∀ (sizes : List ℕ) (i : ℕ) (n : Neuron),
      n ∈ buildNeuronsFrom i sizes
        ↔ ∃ d t, d < sizes.length ∧ t < sizes.getD d 0
            ∧ n = ⟨(i + d, t), false, 0, i + d⟩
  | [], i, n => by simp [buildNeuronsFrom]
  | c :: rest, i, n => by
    unfold buildNeuronsFrom
    rw [List.mem_append, mem_layerNeurons, mem_buildNeuronsFrom rest (i + 1) n]
    constructor
    · rintro (⟨t, ht, rfl⟩ | ⟨d, t, hd, ht, rfl⟩)
      · exact ⟨0, t, by simp, by simpa using ht, by simp⟩
      · refine ⟨d + 1, t, by simpa using hd, by simpa using ht, ?_⟩
        have : i + 1 + d = i + (d + 1) := by omega
        rw [this]
    · rintro ⟨d, t, hd, ht, rfl⟩
      cases d with
      | zero => exact Or.inl ⟨t, by simpa using ht, by simp⟩
      | succ d' =>
        refine Or.inr ⟨d', t, by simpa using hd, by simpa using ht, ?_⟩
        have : i + (d' + 1) = i + 1 + d' := by omega
        rw [this]

theorem filter_layerNeurons_self (i c : ℕ) :
    (layerNeurons i c).filter (fun n => decide (n.layer = i)) = layerNeurons i c := by
  rw [List.filter_eq_self]
  intro n hn
  rcases (mem_layerNeurons i c n).1 hn with ⟨t, _, rfl⟩
  simp

theorem filter_layerNeurons_ne (i c ℓ : ℕ) (h : ℓ ≠ i) :
    (layerNeurons i c).filter (fun n => decide (n.layer = ℓ)) = [] := by
  rw [List.filter_eq_nil_iff]
  intro n hn
  rcases (mem_layerNeurons i c n).1 hn with ⟨t, _, rfl⟩
  simpa using fun hh => h hh.symm

theorem filter_buildNeuronsFrom :
    ∀ (sizes : List ℕ) (i d : ℕ), d < sizes.length →
      (buildNeuronsFrom i sizes).filter (fun n => decide (n.layer = i + d))
        = layerNeurons (i + d) (sizes.getD d 0)
  | [], _, d, hd => by simp at hd
  | c :: rest, i, d, hd => by
    unfold buildNeuronsFrom
    rw [List.filter_append]
    cases d with
    | zero =>
      have h1 : (layerNeurons i c).filter (fun n => decide (n.layer = i + 0))
          = layerNeurons i c := by
        simpa using filter_layerNeurons_self i c
      have h2 : (buildNeuronsFrom (i + 1) rest).filter
          (fun n => decide (n.layer = i + 0)) = [] := by
        rw [List.filter_eq_nil_iff]
        intro n hn
        rcases (mem_buildNeuronsFrom rest (i + 1) n).1 hn with ⟨d', t, _, _, rfl⟩
        simpa using by omega
      rw [h1, h2]
      simp
    | succ d' =>
      have h1 : (layerNeurons i c).filter
          (fun n => decide (n.layer = i + (d' + 1))) = [] :=
        filter_layerNeurons_ne i c _ (by omega)
      have h2 : i + (d' + 1) = (i + 1) + d' := by omega
      rw [h1, List.nil_append, h2,
        filter_buildNeuronsFrom rest (i + 1) d' (by simpa using hd)]
      rfl

theorem buildNeurons_filter (sizes : List ℕ) (d : ℕ) (hd : d < sizes.length) :
    (buildNeurons sizes).filter (fun n => decide (n.layer = d))
      = layerNeurons d (sizes.getD d 0) := by
  have := filter_buildNeuronsFrom sizes 0 d hd
  simpa using this

theorem buildNeuronsFrom_ids_nodup :
    ∀ (sizes : List ℕ) (i : ℕ),
      ((buildNeuronsFrom i sizes).map fun n => n.id).Nodup
  | [], _ => by simp [buildNeuronsFrom]
  | c :: rest, i => by
    unfold buildNeuronsFrom
    rw [List.map_append, List.nodup_append]
    refine ⟨?_, buildNeuronsFrom_ids_nodup rest (i + 1), ?_⟩
    · unfold layerNeurons
      rw [List.map_map]
      refine List.Nodup.map ?_ (List.nodup_range c)
      intro a b hab
      simpa using congrArg Prod.snd hab
    · intro a ha hb
      rcases List.mem_map.1 ha with ⟨n, hn, rfl⟩
      rcases (mem_layerNeurons i c n).1 hn with ⟨t, _, rfl⟩
      rcases List.mem_map.1 hb with ⟨m, hm, hmeq⟩
      rcases (mem_buildNeuronsFrom rest (i + 1) m).1 hm with ⟨d', t', _, _, rfl⟩
      have := congrArg Prod.fst hmeq
      simp at this
      omega

theorem buildNeurons_ids_nodup (sizes : List ℕ) :
    ((buildNeurons sizes).map fun n => n.id).Nodup :=
  buildNeuronsFrom_ids_nodup sizes 0

theorem layerNeurons_ids_nodup (i c : ℕ) :
    ((layerNeurons i c).map fun n => n.id).Nodup := by
  unfold layerNeurons
  rw [List.map_map]
  refine List.Nodup.map ?_ (List.nodup_range c)
  intro a b hab
  simpa using congrArg Prod.snd hab

theorem connsFor_length (sh : NId → List Neuron → List Neuron)
    (r : NId → ℕ → ℚ) (nextLayer : List Neuron) (fromN : Neuron)
    (hsh : ∀ i l, (sh i l).Perm l) :
    (connsFor sh r nextLayer fromN).length = min 8 nextLayer.length := by
  unfold connsFor
  rw [List.length_map, List.enum_length, List.length_take,
    (hsh fromN.id nextLayer).length_eq]
  omega

theorem connsFor_fromId (sh : NId → List Neuron → List Neuron)
    (r : NId → ℕ → ℚ) (nextLayer : List Neuron) (fromN : Neuron)
    (c : Connection) (hc : c ∈ connsFor sh r nextLayer fromN) :
    c.fromId = fromN.id := by
  unfold connsFor at hc
  rcases List.mem_map.1 hc with ⟨p, _, rfl⟩
  rfl

theorem connsFor_toId (sh : NId → List Neuron → List Neuron)
    (r : NId → ℕ → ℚ) (nextLayer : List Neuron) (fromN : Neuron)
    (c : Connection) (hsh : ∀ i l, (sh i l).Perm l)
    (hc : c ∈ connsFor sh r nextLayer fromN) :
    ∃ v ∈ nextLayer, c.toId = v.id := by
  unfold connsFor at hc
  rcases List.mem_map.1 hc with ⟨p, hp, rfl⟩
  have h2 := List.snd_mem_of_mem_enum hp
  have h3 : p.2 ∈ sh fromN.id nextLayer :=
    (List.take_sublist _ _).subset h2
  exact ⟨p.2, (hsh fromN.id nextLayer).mem_iff.1 h3, rfl⟩

theorem connsFor_weight (sh : NId → List Neuron → List Neuron)
    (r : NId → ℕ → ℚ) (nextLayer : List Neuron) (fromN : Neuron)
    (c : Connection) (hr : ∀ i t, 0 ≤ r i t ∧ r i t < 1)
    (hc : c ∈ connsFor sh r nextLayer fromN) :
    -1 ≤ c.weight ∧ c.weight ≤ 1 := by
  unfold connsFor at hc
  rcases List.mem_map.1 hc with ⟨p, _, rfl⟩
  have h := hr fromN.id p.1
  constructor
  · show -1 ≤ r fromN.id p.1 * 2 - 1
    linarith [h.1]
  · show r fromN.id p.1 * 2 - 1 ≤ 1
    linarith [h.2]

theorem connsFor_toIds_nodup (sh : NId → List Neuron → List Neuron)
    (r : NId → ℕ → ℚ) (nextLayer : List Neuron) (fromN : Neuron)
    (hsh : ∀ i l, (sh i l).Perm l)
    (hnd : (nextLayer.map fun n => n.id).Nodup) :
    ((connsFor sh r nextLayer fromN).map fun c => c.toId).Nodup := by
  unfold connsFor
  rw [List.map_map]
  have he : (((sh fromN.id nextLayer).take (min 8 nextLayer.length)).enum.map
        ((fun c => c.toId)
          ∘ fun p => ({ fromId := fromN.id
                        toId := p.2.id
                        weight := r fromN.id p.1 * 2 - 1
                        active := false } : Connection)))
      = (((sh fromN.id nextLayer).take (min 8 nextLayer.length)).enum.map
          Prod.snd).map fun n => n.id := by
    rw [List.map_map]
    rfl
  rw [he, List.enum_map_snd, List.map_take]
  refine List.Sublist.nodup (List.take_sublist _ _) ?_
  exact (((hsh fromN.id nextLayer).map fun n => n.id).nodup_iff).2 hnd

theorem filter_flatMap_nil {α β : Type} (p : β → Bool) (f : α → List β) :
    ∀ l : List α, (∀ v ∈ l, (f v).filter p = []) → (l.flatMap f).filter p = []
  | [], _ => rfl
  | a :: l, h => by
    rw [List.flatMap_cons, List.filter_append, h a (List.mem_cons_self a l),
      filter_flatMap_nil p f l fun v hv => h v (List.mem_cons_of_mem a hv)]
    rfl

theorem filter_flatMap_single {α β : Type} (p : β → Bool) (f : α → List β) :
    ∀ (l : List α) (u : α), u ∈ l → l.Nodup →
      (∀ v ∈ l, v ≠ u → (f v).filter p = []) →
      (l.flatMap f).filter p = (f u).filter p
  | [], u, hu, _, _ => by simp at hu
  | a :: l, u, hu, hnd, hz => by
    rw [List.flatMap_cons, List.filter_append]
    rcases List.mem_cons.1 hu with rfl | hu'
    · have h0 : (l.flatMap f).filter p = [] := by
        apply filter_flatMap_nil
        intro v hv
        refine hz v (List.mem_cons_of_mem _ hv) ?_
        rintro rfl
        exact absurd hv (List.nodup_cons.1 hnd).1
      rw [h0, List.append_nil]
    · have ha : a ≠ u := by
        rintro rfl
        exact absurd hu' (List.nodup_cons.1 hnd).1
      rw [hz a (List.mem_cons_self a l) ha,
        filter_flatMap_single p f l u hu' (List.nodup_cons.1 hnd).2
          fun v hv hvu => hz v (List.mem_cons_of_mem _ hv) hvu,
        List.nil_append]

theorem mem_buildConnections (sh : NId → List Neuron → List Neuron)
    (r : NId → ℕ → ℚ) (sizes : List ℕ) (ns : List Neuron) (c : Connection) :
    c ∈ buildConnections sh r sizes ns
      ↔ ∃ i, i < sizes.length - 1
          ∧ ∃ fromN ∈ ns.filter fun n => decide (n.layer = i),
              c ∈ connsFor sh r (ns.filter fun n => decide (n.layer = i + 1))
                fromN := by
  unfold buildConnections
  rw [List.mem_flatMap]
  constructor
  · rintro ⟨i, hi, hc⟩
    by_cases hif : i < sizes.length - 1
    · rw [if_pos hif] at hc
      rcases List.mem_flatMap.1 hc with ⟨fromN, h1, h2⟩
      exact ⟨i, hif, fromN, h1, h2⟩
    · rw [if_neg hif] at hc
      simp at hc
  · rintro ⟨i, hif, fromN, h1, h2⟩
    refine ⟨i, List.mem_range.2 (by omega), ?_⟩
    rw [if_pos hif]
    exact List.mem_flatMap.2 ⟨fromN, h1, h2⟩

/-- The full edge list filtered to one source unit is exactly the edge
block built for that unit. -/
theorem buildConnections_filter_fromId (sh : NId → List Neuron → List Neuron)
    (r : NId → ℕ → ℚ) (sizes : List ℕ) (u : Neuron)
    (hu : u ∈ buildNeurons sizes) (hlt : u.layer + 1 < sizes.length) :
    (buildConnections sh r sizes (buildNeurons sizes)).filter
        (fun c => decide (c.fromId = u.id))
      = connsFor sh r
          ((buildNeurons sizes).filter fun n => decide (n.layer = u.layer + 1))
          u := by
  have hushape := (mem_buildNeuronsFrom sizes 0 u).1 hu
  rcases hushape with ⟨du, tu, hdu, htu, hue⟩
  have huid : u.id.1 = u.layer := by rw [hue]
  unfold buildConnections
  rw [filter_flatMap_single _ _ (List.range sizes.length) u.layer
    (List.mem_range.2 (by omega)) (List.nodup_range _) ?_]
  · rw [if_pos (by omega : u.layer < sizes.length - 1)]
    have hnodup : ((buildNeurons sizes).filter
        fun n => decide (n.layer = u.layer)).Nodup := by
      refine List.Nodup.of_map (fun n => n.id) ?_
      refine List.Sublist.nodup (List.Sublist.map _ (List.filter_sublist _)) ?_
      exact buildNeurons_ids_nodup sizes
    rw [filter_flatMap_single _ _ _ u
      (List.mem_filter.2 ⟨hu, by simp⟩) hnodup ?_]
    · rw [List.filter_eq_self]
      intro c hc
      simp [connsFor_fromId sh r _ u c hc]
    · intro fromN hfromN hne
      rw [List.filter_eq_nil_iff]
      intro c hc
      rw [connsFor_fromId sh r _ fromN c hc]
      simp only [decide_eq_true_eq]
      intro hideq
      apply hne
      have hndids : (((buildNeurons sizes).filter
          fun n => decide (n.layer = u.layer)).map fun n => n.id).Nodup :=
        List.Sublist.nodup (List.Sublist.map _ (List.filter_sublist _))
          (buildNeurons_ids_nodup sizes)
      exact List.inj_on_of_nodup_map hndids hfromN
        (List.mem_filter.2 ⟨hu, by simp⟩) hideq
  · intro i hi hne
    by_cases hif : i < sizes.length - 1
    · rw [if_pos hif, List.filter_eq_nil_iff]
      intro c hc
      rcases List.mem_flatMap.1 hc with ⟨fromN, h1, h2⟩
      rw [connsFor_fromId sh r _ fromN c h2]
      simp only [decide_eq_true_eq]
      intro hideq
      have h3 := List.mem_filter.1 h1
      have h4 : fromN.layer = i := by simpa using h3.2
      rcases (mem_buildNeuronsFrom sizes 0 fromN).1 h3.1 with ⟨d, t, _, _, rfl⟩
      have h5 : u.id.1 = 0 + d := by rw [← hideq]
      have h6 : (0 : ℕ) + d = i := by simpa using h4
      apply hne
      omega
    · rw [if_neg hif]
      rfl

/-! ### Remaining support lemmas -/

theorem buildNeurons_shape (sizes : List ℕ) (n : Neuron)
    (hn : n ∈ buildNeurons sizes) :
    n.id.1 = n.layer ∧ n.active = false ∧ n.activation = 0 := by
  rcases (mem_buildNeuronsFrom sizes 0 n).1 hn with ⟨d, t, _, _, rfl⟩
  exact ⟨rfl, rfl, rfl⟩

theorem ids_map_ite (ns : List Neuron) (f : Neuron → Neuron) (j : ℕ)
    (hid : ∀ n, (f n).id = n.id) (hlay : ∀ n, (f n).layer = n.layer) :
    ((ns.map fun n => if n.layer = j then f n else n).map fun n => n.id)
      = ns.map fun n => n.id := by
  have := congrArg (List.map Prod.fst) (map_pair_map_ite ns f j hid hlay)
  simpa [List.map_map, Function.comp] using this

/-- A source unit whose layer has not been processed yet reads as
inactive. -/
theorem srcActive_unprocessed (sp : ℚ) (features : List ℕ) (g : ℕ → ℚ)
    (ns : List Neuron) (cs : List Connection)
    (hlay : ∀ n ∈ ns, n.id.1 = n.layer) (t : ℕ) (c : Connection)
    (hfl : t ≤ c.fromId.1) :
    srcActive (runStateAfter sp features g (resetState ns cs) t).neurons c
      = false := by
  unfold srcActive
  cases hfind : (runStateAfter sp features g (resetState ns cs) t).neurons.find?
      fun n => decide (n.id = c.fromId) with
  | none => rfl
  | some f =>
    have hfmem := List.mem_of_find?_eq_some hfind
    have hfid : f.id = c.fromId := by simpa using List.find?_some hfind
    have hflay : f.id.1 = f.layer :=
      runStateAfter_hlay sp features g ns cs hlay t f hfmem
    rcases List.mem_iff_getElem?.1 hfmem with ⟨p, hp⟩
    have hpairs := congrArg (fun l => l[p]?)
      (runStateAfter_pair sp features g (resetState ns cs) t)
    simp only [List.getElem?_map, hp] at hpairs
    cases h0 : (resetState ns cs).neurons[p]? with
    | none => rw [h0] at hpairs; simp at hpairs
    | some n0 =>
      rw [h0] at hpairs
      simp only [Option.map_some', Option.some_inj] at hpairs
      have hid0 : f.id = n0.id := congrArg Prod.fst hpairs
      have hlay0 : f.layer = n0.layer := congrArg Prod.snd hpairs
      have hn0t : t ≤ n0.layer := by
        rw [← hlay0, ← hflay, hfid]
        exact hfl
      have := runStateAfter_unprocessed sp features g (resetState ns cs) t p n0
        h0 hn0t
      rw [hp] at this
      have hfn0 : f = n0 := Option.some_inj.1 this
      show f.active = false
      rw [hfn0]
      exact (resetState_mem ns cs n0 (List.getElem?_mem h0)).1

/-- Membership description of the input-layer walk's output. -/
theorem stepInputAux_mem (sp : ℚ) (features : List ℕ) (g : ℕ → ℚ) :
    ∀ (ns : List Neuron) (idx ctr : ℕ) (x : Neuron),
      x ∈ (stepInputAux sp features g ns idx ctr).1 →
      (∃ m idx' ctr', m ∈ ns ∧ x = (inputUnit sp features g idx' ctr' m).1)
        ∨ x ∈ ns
  | [], _, _, x, hx => by simp [stepInputAux] at hx
  | n :: ns, idx, ctr, x, hx => by
    unfold stepInputAux at hx
    by_cases h : n.layer = 0
    · rw [if_pos h] at hx
      rcases List.mem_cons.1 hx with rfl | hx'
      · exact Or.inl ⟨n, idx, ctr, List.mem_cons_self n ns, rfl⟩
      · rcases stepInputAux_mem sp features g ns (idx + 1) _ x hx' with
          ⟨m, i', c', hm, he⟩ | hmem
        · exact Or.inl ⟨m, i', c', List.mem_cons_of_mem n hm, he⟩
        · exact Or.inr (List.mem_cons_of_mem n hmem)
    · rw [if_neg h] at hx
      rcases List.mem_cons.1 hx with rfl | hx'
      · exact Or.inr (List.mem_cons_self x ns)
      · rcases stepInputAux_mem sp features g ns idx ctr x hx' with
          ⟨m, i', c', hm, he⟩ | hmem
        · exact Or.inl ⟨m, i', c', List.mem_cons_of_mem n hm, he⟩
        · exact Or.inr (List.mem_cons_of_mem n hmem)

/-- An active unit produced by the input-layer rule has activation in
`[0, 1]`. -/
theorem inputUnit_range (sp : ℚ) (features : List ℕ) (g : ℕ → ℚ)
    (idx ctr : ℕ) (m : Neuron) (hg : ∀ i, 0 ≤ g i)
    (hx : (inputUnit sp features g idx ctr m).1.active = true) :
    0 ≤ (inputUnit sp features g idx ctr m).1.activation
      ∧ (inputUnit sp features g idx ctr m).1.activation ≤ 1 := by
  by_cases h : sp < g ctr
  · rw [inputUnit_activation_pos sp features g idx ctr m h]
    constructor
    · apply le_min
      · norm_num
      · apply mul_nonneg
        · positivity
        · have := hg (ctr + 1)
          nlinarith
    · exact min_le_left _ _
  · rw [inputUnit_active sp features g idx ctr m] at hx
    simp [h] at hx

/-- The activation-range invariant along the run. -/
theorem run_invariant_range (sp : ℚ) (features : List ℕ) (g : ℕ → ℚ)
    (ns : List Neuron) (cs : List Connection) (hg : ∀ i, 0 ≤ g i) :
    ∀ t : ℕ, ∀ n ∈ (runStateAfter sp features g (resetState ns cs) t).neurons,
      n.active = true → 0 ≤ n.activation ∧ n.activation ≤ 1
  | 0, n, hn, ha => by
    rw [(resetState_mem ns cs n hn).1] at ha
    exact absurd ha (by simp)
  | t + 1, n, hn, ha => by
    have ih := run_invariant_range sp features g ns cs hg t
    revert hn
    show n ∈ (stepLayer sp features g t _).neurons → _
    intro hn
    unfold stepLayer at hn
    by_cases hj : t = 0
    · rw [if_pos hj] at hn
      rcases stepInputAux_mem sp features g _ 0 0 n hn with
        ⟨m, i', c', _, rfl⟩ | hmem
      · exact inputUnit_range sp features g i' c' m hg ha
      · exact ih n hmem ha
    · rw [if_neg hj] at hn
      rw [stepHidden_neurons] at hn
      rcases List.mem_map.1 hn with ⟨n1, hn1, rfl⟩
      rw [rawPhase_neurons] at hn1
      rcases List.mem_map.1 hn1 with ⟨n0, hn0, rfl⟩
      by_cases h0 : n0.layer = t
      · rw [if_pos h0] at ha ⊢
        have hl1 : (rawUpdate
            (runStateAfter sp features g (resetState ns cs) t).neurons
            (runStateAfter sp features g (resetState ns cs) t).connections
            n0).layer = t := by
          rw [rawUpdate_layer]
          exact h0
        rw [if_pos hl1] at ha ⊢
        constructor
        · rw [gateOutcome_active_activation _ _ _ ha]
          apply le_min
          · norm_num
          · show (0 : ℚ) ≤ (rawUpdate _ _ n0).activation
            exact le_max_left _ _
        · rw [gateOutcome_active_activation _ _ _ ha]
          exact min_le_left _ _
      · rw [if_neg h0] at ha ⊢
        rw [if_neg h0] at ha ⊢
        exact ih n0 hn0 ha

/-! ### Concrete fixtures used by the witness theorems -/

/-- Identity stand-in for the random shuffle (a permutation). -/
def demoSh : NId → List Neuron → List Neuron := fun _ l => l

/-- Constant stand-in for the builder's random stream. -/
def demoR : NId → ℕ → ℚ := fun _ _ => 1 / 2

/-- Constant stand-in for the simulator's random stream. -/
def demoG : ℕ → ℚ := fun _ => 1 / 2

def demoSizes : List ℕ := [1, 2]

def demoNs : List Neuron := buildNeurons demoSizes

def demoCs : List Connection := buildConnections demoSh demoR demoSizes demoNs

def demoEngine : EngineState :=
  { neurons := demoNs, connections := demoCs, isProcessing := false,
    stats := { active := 0, total := 0, sparsity := 0 } }

def demoBusyEngine : EngineState :=
  { neurons := demoNs, connections := demoCs, isProcessing := true,
    stats := { active := 0, total := 0, sparsity := 0 } }

def demoText : List Char := ['h', 'i']

/-- The first built unit of the demo topology. -/
def demoUnit : Neuron :=
  { id := (0, 0), active := false, activation := 0, layer := 0 }

/-- The layer-0 unit of the demo run after the input step with
`sparsityLevel = 1/4` and the constant draw `1/2`: it fires
(`1/2 > 1/4`) and its rescaled activation `min 1 (13/16 * 5/4)` clamps
to 1. -/
def demoActiveUnit : Neuron :=
  { id := (0, 0), active := true, activation := 1, layer := 0 }

/-- A three-unit state whose layer-1 unit receives two full-weight
edges from active unit sources at activation 1. -/
def demoRawNeurons : List Neuron :=
  [{ id := (0, 0), active := true, activation := 1, layer := 0 },
   { id := (0, 1), active := true, activation := 1, layer := 0 },
   { id := (1, 0), active := false, activation := 0, layer := 1 }]

def demoRawConns : List Connection :=
  [{ fromId := (0, 0), toId := (1, 0), weight := 1, active := false },
   { fromId := (0, 1), toId := (1, 0), weight := 1, active := false }]

def demoRawUnit : Neuron :=
  { id := (1, 0), active := false, activation := 0, layer := 1 }

/-! ### The claims -/

theorem processInput_guard (g : ℕ → ℚ) (sp : ℚ) (text : List Char)
    (e : EngineState) (h : text = [] ∨ e.isProcessing = true) :
    processInput g sp text e = (e, []) := by
  unfold processInput
  rcases h with rfl | h
  · simp
  · rw [h]
    simp

/-- C5: a call to `run` with empty `inputText`, or issued while a run is
already in progress on the same instance, is a no-op: it yields zero
snapshots and leaves the engine state (neurons, edges, flags, stats)
unchanged. -/
theorem C5_noop (g : ℕ → ℚ) (sp : ℚ) (text : List Char) (e : EngineState)
    (h : text = [] ∨ e.isProcessing = true) :
    processInput g sp text e = (e, []) :=
  processInput_guard g sp text e h

/-- C5 witness at concrete inputs: the empty text and the re-entrant
call are both no-ops on the demo engine. -/
theorem C5_noop_witness :
    processInput demoG (1 / 2) [] demoEngine = (demoEngine, [])
      ∧ processInput demoG (1 / 2) demoText demoBusyEngine
          = (demoBusyEngine, []) :=
  ⟨C5_noop demoG (1 / 2) [] demoEngine (Or.inl rfl),
   C5_noop demoG (1 / 2) demoText demoBusyEngine (Or.inr rfl)⟩

/-- C8: tokenization yields one integer feature per character of the
input, the code point of that character after lowercasing. -/
theorem C8_tokenize (text : List Char) :
    (tokenize text).length = text.length
      ∧ tokenize text = text.map fun c => (Char.toLower c).toNat := by
  constructor
  · simp [tokenize]
  · simp [tokenize, List.map_map]

/-- C4: a run with non-empty input from an idle engine yields exactly
`numLayers = 6` snapshots, the `j`-th being the state after processing
layer `j` — i.e. the snapshots come in layer order `0..5`. -/
theorem C4_snapshots (g : ℕ → ℚ) (sp : ℚ) (text : List Char) (e : EngineState)
    (ht : text ≠ []) (he : e.isProcessing = false) :
    (processInput g sp text e).2.length = numLayers
      ∧ numLayers = 6
      ∧ layerSizes.length = numLayers
      ∧ (processInput g sp text e).2
          = (List.range numLayers).map (fun j =>
              runStateAfter sp (tokenize text) g
                (resetState e.neurons e.connections) (j + 1))
      ∧ ∀ j, j < numLayers →
          (processInput g sp text e).2[j]?
            = some (stepLayer sp (tokenize text) g j
                (runStateAfter sp (tokenize text) g
                  (resetState e.neurons e.connections) j)) := by
  have h2 := processInput_run g sp text e ht he
  refine ⟨?_, rfl, rfl, ?_, ?_⟩
  · rw [h2]
    simp [runSnaps]
  · rw [h2]
    rfl
  · intro j hj
    rw [h2, runSnaps_getElem sp _ g _ j hj]
    rfl

/-- C4 witness: the demo run yields six snapshots. -/
theorem C4_snapshots_witness :
    (processInput demoG (1 / 2) demoText demoEngine).2.length = numLayers :=
  (C4_snapshots demoG (1 / 2) demoText demoEngine (by decide) rfl).1

/-- C10: within one run, once the snapshot for layer `i` has been
emitted, every unit lying in a layer `≤ i` keeps exactly the same record
(same `active`, same `activation`, at the same position) in every later
snapshot of the run: each step writes only the units of its own layer,
so a unit's state in the final snapshot is its state in its own layer's
snapshot. -/
theorem C10_frame (g : ℕ → ℚ) (sp : ℚ) (text : List Char) (e : EngineState)
    (ht : text ≠ []) (he : e.isProcessing = false) :
    (∀ j, j < numLayers →
      (processInput g sp text e).2[j]?
        = some (runStateAfter sp (tokenize text) g
            (resetState e.neurons e.connections) (j + 1)))
      ∧ ∀ i j, i ≤ j → ∀ (p : ℕ) (n : Neuron),
          (runStateAfter sp (tokenize text) g
            (resetState e.neurons e.connections) (i + 1)).neurons[p]? = some n →
          n.layer ≤ i →
          (runStateAfter sp (tokenize text) g
            (resetState e.neurons e.connections) (j + 1)).neurons[p]? = some n := by
  constructor
  · intro j hj
    rw [processInput_run g sp text e ht he]
    exact runSnaps_getElem sp _ g _ j hj
  · intro i j hij p n hp hn
    have h := runStateAfter_frozen sp (tokenize text) g
      (resetState e.neurons e.connections) (i + 1) (j - i) p n hp (by omega)
    have he2 : i + 1 + (j - i) = j + 1 := by omega
    rw [he2] at h
    exact h

/-- C10 witness: the demo run's active layer-0 unit, written by the
layer-0 step, still sits unchanged at its position in the final
snapshot. -/
theorem C10_frame_witness :
    (runStateAfter (1 / 4) (tokenize demoText) demoG
      (resetState demoEngine.neurons demoEngine.connections) 6).neurons[0]?
        = some demoActiveUnit :=
  (C10_frame demoG (1 / 4) demoText demoEngine (by decide) rfl).2 0 5
    (by omega) 0 demoActiveUnit (by with_unfolding_all rfl) (by decide)

/-- C9: in every emitted snapshot of every run, every unit flagged
active has its activation inside `[0, 1]`. -/
theorem C9_active_range (g : ℕ → ℚ) (sp : ℚ) (text : List Char)
    (e : EngineState) (hg : ∀ m, 0 ≤ g m) :
    ∀ s ∈ (processInput g sp text e).2, ∀ n ∈ s.neurons,
      n.active = true → 0 ≤ n.activation ∧ n.activation ≤ 1 := by
  intro s hs n hn ha
  by_cases hguard : text = [] ∨ e.isProcessing = true
  · rw [processInput_guard g sp text e hguard] at hs
    simp at hs
  · push_neg at hguard
    have ht : text ≠ [] := hguard.1
    have he : e.isProcessing = false := by
      cases hx : e.isProcessing
      · rfl
      · exact absurd hx hguard.2
    rw [processInput_run g sp text e ht he] at hs
    unfold runSnaps at hs
    rcases List.mem_map.1 hs with ⟨j, _, rfl⟩
    exact run_invariant_range sp (tokenize text) g e.neurons e.connections hg
      (j + 1) n hn ha

/-- C9 witness: the demo run's firing layer-0 unit, found in the first
emitted snapshot, has activation in `[0, 1]`. -/
theorem C9_active_range_witness :
    0 ≤ demoActiveUnit.activation ∧ demoActiveUnit.activation ≤ 1 :=
  C9_active_range demoG (1 / 4) demoText demoEngine
    (fun m => by norm_num [demoG])
    (runStateAfter (1 / 4) (tokenize demoText) demoG
      (resetState demoEngine.neurons demoEngine.connections) 1)
    (by
      rw [processInput_run demoG (1 / 4) demoText demoEngine (by decide) rfl]
      unfold runSnaps
      exact List.mem_map.2 ⟨0, List.mem_range.2 (by norm_num [numLayers]), rfl⟩)
    demoActiveUnit
    (by
      have hns : (runStateAfter (1 / 4) (tokenize demoText) demoG
          (resetState demoEngine.neurons demoEngine.connections) 1).neurons[0]?
            = some demoActiveUnit := by with_unfolding_all rfl
      exact List.getElem?_mem hns)
    (by decide)

/-- C2: the layer-0 snapshot applies, at every layer position `idx`, the
input rule: featureVal is `features[idx mod len features] / 128`; the
unit fires iff its own fresh draw `r` satisfies `r > sparsityLevel`
(draws are consumed in order: each unit takes one draw, plus one more
when it fires, so unit `idx` reads draw `idx + #active-before-idx`);
firing units are rescaled to `min 1 (featureVal * (1 + r' * 0.5))` with
the next draw `r'`, and non-firing units keep `activation = featureVal`.
-/
theorem C2_input_layer (g : ℕ → ℚ) (sp : ℚ) (text : List Char)
    (e : EngineState) (ht : text ≠ []) (he : e.isProcessing = false) :
    (processInput g sp text e).2[0]?
        = some (stepInput sp (tokenize text) g
            (resetState e.neurons e.connections))
      ∧ ∀ (idx : ℕ) (n : Neuron),
          ((stepInput sp (tokenize text) g
              (resetState e.neurons e.connections)).neurons.filter
            fun m => decide (m.layer = 0))[idx]? = some n →
          n.active = decide (sp < g (idx
              + ((((stepInput sp (tokenize text) g
                  (resetState e.neurons e.connections)).neurons.filter
                fun m => decide (m.layer = 0)).take idx).countP
                  fun x => x.active)))
            ∧ (n.active = true →
                n.activation = min 1
                  ((((tokenize text).getD (idx % (tokenize text).length) 0 : ℕ)
                      : ℚ) / 128
                    * (1 + g (idx
                        + ((((stepInput sp (tokenize text) g
                            (resetState e.neurons e.connections)).neurons.filter
                          fun m => decide (m.layer = 0)).take idx).countP
                            fun x => x.active) + 1) * (1 / 2))))
            ∧ (n.active = false →
                n.activation
                  = (((tokenize text).getD (idx % (tokenize text).length) 0
                      : ℕ) : ℚ) / 128) := by
  have hfil : ((stepInput sp (tokenize text) g
        (resetState e.neurons e.connections)).neurons.filter
          fun m => decide (m.layer = 0))
      = inputScan sp (tokenize text) g
          ((resetState e.neurons e.connections).neurons.filter
            fun m => decide (m.layer = 0)) 0 0 :=
    stepInputAux_filter sp (tokenize text) g _ 0 0
  constructor
  · rw [processInput_run g sp text e ht he,
      runSnaps_getElem sp _ g _ 0 (by decide)]
    rfl
  · intro idx n hL
    rw [hfil] at hL
    have hlt := (List.getElem?_eq_some.1 hL).1
    rw [inputScan_length] at hlt
    obtain ⟨m0, hm0⟩ : ∃ m0, ((resetState e.neurons e.connections).neurons.filter
        fun m => decide (m.layer = 0))[idx]? = some m0 :=
      ⟨_, List.getElem?_eq_getElem hlt⟩
    have hget := inputScan_get sp (tokenize text) g _ 0 0 idx m0 hm0
    rw [hL] at hget
    have hn := Option.some_inj.1 hget
    rw [hfil]
    simp only [Nat.zero_add] at hn
    subst hn
    refine ⟨inputUnit_active sp (tokenize text) g idx _ m0, ?_, ?_⟩
    · intro ha
      rw [inputUnit_active sp (tokenize text) g idx _ m0] at ha
      have hlt2 : sp < g (idx + ((inputScan sp (tokenize text) g
          ((resetState e.neurons e.connections).neurons.filter
            fun m => decide (m.layer = 0)) 0 0).take idx).countP
              fun x => x.active) := of_decide_eq_true ha
      rw [inputUnit_activation_pos sp (tokenize text) g idx _ m0 hlt2]
    · intro ha
      rw [inputUnit_active sp (tokenize text) g idx _ m0] at ha
      have hlt2 : ¬ sp < g (idx + ((inputScan sp (tokenize text) g
          ((resetState e.neurons e.connections).neurons.filter
            fun m => decide (m.layer = 0)) 0 0).take idx).countP
              fun x => x.active) := of_decide_eq_false ha
      rw [inputUnit_activation_neg sp (tokenize text) g idx _ m0 hlt2]

/-- C2 witness: the demo run's first snapshot is the input-layer step
applied to the reset state. -/
theorem C2_input_layer_witness :
    (processInput demoG (1 / 2) demoText demoEngine).2[0]?
      = some (stepInput (1 / 2) (tokenize demoText) demoG
          (resetState demoEngine.neurons demoEngine.connections)) :=
  (C2_input_layer demoG (1 / 2) demoText demoEngine (by decide) rfl).1

/-- C7: every hidden/output-layer snapshot is produced by first storing,
for each unit of the layer, the raw activation
`max 0 (Σ src.activation * weight over incoming edges with active
source)` (computed from the previous snapshot), and only then applying
the top-k gate; the stored raw value is not clamped and can exceed 1
(shown at a concrete configuration). -/
theorem C7_raw_activation (g : ℕ → ℚ) (sp : ℚ) (text : List Char)
    (e : EngineState) (ht : text ≠ []) (he : e.isProcessing = false) :
    (∀ j, 1 ≤ j → j < numLayers →
      (processInput g sp text e).2[j]?
        = some (gatePhase sp j (rawPhase j
            (runStateAfter sp (tokenize text) g
              (resetState e.neurons e.connections) j))))
      ∧ (∀ (s : SimState) (u : Neuron),
          (rawUpdate s.neurons s.connections u).activation
            = max 0 ((((s.connections.filter fun c => decide (c.toId = u.id)).filter
                  fun c => srcActive s.neurons c).map
                fun c => srcActivation s.neurons c * c.weight).sum))
      ∧ (∀ (j : ℕ) (s : SimState) (p : ℕ) (n : Neuron), s.neurons[p]? = some n →
          (rawPhase j s).neurons[p]?
            = some (if n.layer = j then rawUpdate s.neurons s.connections n
                else n))
      ∧ 1 < (rawUpdate demoRawNeurons demoRawConns demoRawUnit).activation := by
  refine ⟨?_, ?_, ?_, ?_⟩
  · intro j h1 hj
    rw [processInput_run g sp text e ht he, runSnaps_getElem sp _ g _ j hj]
    show some (stepLayer sp _ g j _) = _
    unfold stepLayer
    rw [if_neg (by omega : ¬ j = 0)]
    rfl
  · intro s u
    show max 0 (unitSum s.neurons s.connections u) = _
    rw [unitSum_eq]
  · intro j s p n hp
    rw [rawPhase_neurons, List.getElem?_map, hp]
    rfl
  · show (1 : ℚ) < (rawUpdate demoRawNeurons demoRawConns demoRawUnit).activation
    have h2 : unitSum demoRawNeurons demoRawConns demoRawUnit = 2 := by
      rw [unitSum_eq]
      simp +decide [demoRawNeurons, demoRawConns, demoRawUnit, srcActive,
        srcActivation, List.find?, List.filter]
      norm_num
    show (1 : ℚ) < max 0 (unitSum demoRawNeurons demoRawConns demoRawUnit)
    rw [h2]
    norm_num

/-- C7 witness: the demo run's layer-1 snapshot is the gate applied to
the raw phase. -/
theorem C7_raw_activation_witness :
    (processInput demoG (1 / 2) demoText demoEngine).2[1]?
      = some (gatePhase (1 / 2) 1 (rawPhase 1
          (runStateAfter (1 / 2) (tokenize demoText) demoG
            (resetState demoEngine.neurons demoEngine.connections) 1))) :=
  (C7_raw_activation demoG (1 / 2) demoText demoEngine (by decide) rfl).1 1
    (by decide) (by decide)

/-- C1: in every hidden/output-layer snapshot of a run, the layer's
units are the gate outcomes of their raw values: at most
`k = ceil(layerSize * (1 - sparsityLevel))` units are active, every
active unit's raw (pre-clamp) activation exceeds `0.1`, every unit
ranked at or beyond `k` in the descending sort or with raw activation at
or under `0.1` is inactive, and every inactive unit keeps its computed
raw activation. -/
theorem C1_topk (g : ℕ → ℚ) (sp : ℚ) (text : List Char) (e : EngineState)
    (ht : text ≠ []) (he : e.isProcessing = false) (hsp : sp ≤ 1)
    (hnd : (e.neurons.map fun n => n.id).Nodup) :
    ∀ j, 1 ≤ j → j < numLayers →
      (let sPrev := runStateAfter sp (tokenize text) g
          (resetState e.neurons e.connections) j
       let R := (rawPhase j sPrev).neurons.filter fun n => decide (n.layer = j)
       let k := layerK sp R.length
       let sorted := R.mergeSort descBy
       let L := (stepHidden sp j sPrev).neurons.filter
          fun n => decide (n.layer = j)
       (processInput g sp text e).2[j]? = some (stepHidden sp j sPrev)
         ∧ L = R.map (gateOutcome k sorted)
         ∧ (k : ℤ) = ⌈(R.length : ℚ) * (1 - sp)⌉
         ∧ (L.countP fun n => n.active) ≤ k
         ∧ (∀ n ∈ R, (gateOutcome k sorted n).active = true
              → 1 / 10 < n.activation)
         ∧ (∀ n ∈ R, (k ≤ sorted.findIdx (fun m => decide (m.id = n.id))
              ∨ n.activation ≤ 1 / 10) → (gateOutcome k sorted n).active = false)
         ∧ (∀ n ∈ R, (gateOutcome k sorted n).active = false →
              (gateOutcome k sorted n).activation = n.activation)) := by
  intro j h1 hj
  refine ⟨?_, ?_, ?_, ?_, ?_, ?_, ?_⟩
  · rw [processInput_run g sp text e ht he, runSnaps_getElem sp _ g _ j hj]
    show some (stepLayer sp _ g j _) = _
    unfold stepLayer
    rw [if_neg (by omega : ¬ j = 0)]
  · exact filter_map_ite _ j (gateOutcome_layer _ _) _
  · exact (Int.toNat_of_nonneg (Int.ceil_nonneg (mul_nonneg
      (Nat.cast_nonneg _) (by linarith))))
  · have hnd2 : (((rawPhase j (runStateAfter sp (tokenize text) g
        (resetState e.neurons e.connections) j)).neurons.map
          fun n => n.id).Nodup) := by
      rw [rawPhase_neurons, ids_map_ite _ _ _ (rawUpdate_id _ _)
        (rawUpdate_layer _ _), runStateAfter_ids, resetState_ids]
      exact hnd
    exact gatePhase_countP_le sp j _ hnd2
  · intro n _ ha
    exact ((gateOutcome_active_iff _ _ _).1 ha).2
  · intro n _ hcond
    cases hx : (gateOutcome (layerK sp ((rawPhase j (runStateAfter sp
        (tokenize text) g (resetState e.neurons e.connections) j)).neurons.filter
          fun n => decide (n.layer = j)).length)
        (((rawPhase j (runStateAfter sp (tokenize text) g
          (resetState e.neurons e.connections) j)).neurons.filter
            fun n => decide (n.layer = j)).mergeSort descBy) n).active with
    | false => rfl
    | true =>
      exfalso
      have h2 := (gateOutcome_active_iff _ _ _).1 hx
      rcases hcond with hk | hfloor
      · omega
      · linarith [h2.2]
  · intro n _ ha
    exact gateOutcome_inactive_activation _ _ _ ha

/-- C1 witness: the demo run's layer-1 snapshot is the hidden step at
layer 1. -/
theorem C1_topk_witness :
    (processInput demoG (1 / 2) demoText demoEngine).2[1]?
      = some (stepHidden (1 / 2) 1 (runStateAfter (1 / 2) (tokenize demoText)
          demoG (resetState demoEngine.neurons demoEngine.connections) 1)) :=
  (C1_topk demoG (1 / 2) demoText demoEngine (by decide) rfl (by norm_num)
    (by decide) 1 (by decide) (by decide)).1

/-- C3: in every emitted snapshot, an edge is active exactly when its
source unit was active in the immediately preceding state (the prior
layer's snapshot; for the layer-0 snapshot, the all-inactive reset
state), for every edge of a well-formed topology (edges join adjacent
layers and target existing units). -/
theorem C3_edge_activity (g : ℕ → ℚ) (sp : ℚ) (text : List Char)
    (e : EngineState) (ht : text ≠ []) (he : e.isProcessing = false)
    (hlay : ∀ n ∈ e.neurons, n.id.1 = n.layer)
    (hadj : ∀ c ∈ e.connections, c.fromId.1 + 1 = c.toId.1)
    (hex : ∀ c ∈ e.connections, ∃ v ∈ e.neurons, v.id = c.toId) :
    ∀ j, j < numLayers →
      (processInput g sp text e).2[j]?
          = some (runStateAfter sp (tokenize text) g
              (resetState e.neurons e.connections) (j + 1))
        ∧ ∀ (p : ℕ) (c : Connection),
            (runStateAfter sp (tokenize text) g
              (resetState e.neurons e.connections) (j + 1)).connections[p]?
              = some c →
            (c.active = true ↔
              srcActive (runStateAfter sp (tokenize text) g
                (resetState e.neurons e.connections) j).neurons c = true) := by
  intro j hj
  constructor
  · rw [processInput_run g sp text e ht he]
    exact runSnaps_getElem sp _ g _ j hj
  · intro p c hp
    have hInv := conn_invariant sp (tokenize text) g e.neurons e.connections
      hlay hadj hex (j + 1) p c hp
    have hcmem : c ∈ (runStateAfter sp (tokenize text) g
        (resetState e.neurons e.connections) (j + 1)).connections :=
      List.getElem?_mem hp
    rcases runStateAfter_conn_skel_mem sp (tokenize text) g _ (j + 1) c hcmem
      with ⟨c1, hc1, hf1, ht1, _⟩
    rcases resetState_conn_mem e.neurons e.connections c1 hc1
      with ⟨⟨c0, hc0, hf0, ht0⟩, _⟩
    have hadjc : c.fromId.1 + 1 = c.toId.1 := by
      rw [hf1, ht1, hf0, ht0]
      exact hadj c0 hc0
    by_cases hj0 : j = 0
    · subst hj0
      have hlt : ¬ c.toId.1 < 1 := by omega
      rw [decide_eq_false hlt, Bool.false_and] at hInv
      rw [hInv]
      have h0 : srcActive (runStateAfter sp (tokenize text) g
          (resetState e.neurons e.connections) 0).neurons c = false :=
        srcActive_reset e.neurons e.connections c
      rw [h0]
    · have hstep : runStateAfter sp (tokenize text) g
          (resetState e.neurons e.connections) (j + 1)
            = stepHidden sp j (runStateAfter sp (tokenize text) g
                (resetState e.neurons e.connections) j) := by
        show stepLayer sp (tokenize text) g j _ = _
        unfold stepLayer
        rw [if_neg hj0]
      by_cases hlt : c.toId.1 < j + 1
      · rw [decide_eq_true hlt, Bool.true_and] at hInv
        have hpres : srcActive (runStateAfter sp (tokenize text) g
            (resetState e.neurons e.connections) (j + 1)).neurons c
              = srcActive (runStateAfter sp (tokenize text) g
                (resetState e.neurons e.connections) j).neurons c := by
          rw [hstep]
          apply srcActive_stepHidden
          intro n hn hni
          have hlayn := runStateAfter_hlay sp (tokenize text) g e.neurons
            e.connections hlay j n hn
          rw [← hlayn, hni]
          omega
        rw [hInv, hpres]
      · rw [decide_eq_false hlt, Bool.false_and] at hInv
        rw [hInv]
        have h0 : srcActive (runStateAfter sp (tokenize text) g
            (resetState e.neurons e.connections) j).neurons c = false :=
          srcActive_unprocessed sp (tokenize text) g e.neurons e.connections
            hlay j c (by omega)
        rw [h0]

/-- C3 witness at the demo run: the layer-0 snapshot exists and its
edge-activity matches the reset state's unit activity. -/
theorem C3_edge_activity_witness :
    (processInput demoG (1 / 2) demoText demoEngine).2[0]?
      = some (runStateAfter (1 / 2) (tokenize demoText) demoG
          (resetState demoEngine.neurons demoEngine.connections) 1) :=
  ((C3_edge_activity demoG (1 / 2) demoText demoEngine (by decide) rfl
    (by decide) (by decide) (by decide)) 0 (by decide)).1

/-- C6: in every built topology, every unit of a non-terminal layer has
out-degree exactly `min 8 (size of the next layer)` with pairwise
distinct targets; every edge joins a unit of some layer `i` to an
existing unit of layer `i + 1` (no skips, no reversals, none out of the
last layer); and every weight lies in `[-1, 1]`. -/
theorem C6_topology (sh : NId → List Neuron → List Neuron) (r : NId → ℕ → ℚ)
    (sizes : List ℕ) (hsh : ∀ i l, (sh i l).Perm l)
    (hr : ∀ i t, 0 ≤ r i t ∧ r i t < 1) :
    (∀ u ∈ buildNeurons sizes, u.layer + 1 < sizes.length →
        ((buildConnections sh r sizes (buildNeurons sizes)).filter
            fun c => decide (c.fromId = u.id)).length
          = min 8 (sizes.getD (u.layer + 1) 0)
        ∧ (((buildConnections sh r sizes (buildNeurons sizes)).filter
            fun c => decide (c.fromId = u.id)).map fun c => c.toId).Nodup)
      ∧ ∀ c ∈ buildConnections sh r sizes (buildNeurons sizes),
          c.fromId.1 + 1 = c.toId.1
            ∧ c.fromId.1 + 1 < sizes.length
            ∧ (∃ v ∈ buildNeurons sizes,
                v.id = c.toId ∧ v.layer = c.fromId.1 + 1)
            ∧ (∃ u ∈ buildNeurons sizes, u.id = c.fromId)
            ∧ -1 ≤ c.weight ∧ c.weight ≤ 1 := by
  constructor
  · intro u hu hlt
    rw [buildConnections_filter_fromId sh r sizes u hu hlt]
    constructor
    · rw [connsFor_length sh r _ u hsh, buildNeurons_filter sizes (u.layer + 1)
        (by omega), layerNeurons_length]
    · refine connsFor_toIds_nodup sh r _ u hsh ?_
      rw [buildNeurons_filter sizes (u.layer + 1) (by omega)]
      exact layerNeurons_ids_nodup _ _
  · intro c hc
    rcases (mem_buildConnections sh r sizes (buildNeurons sizes) c).1 hc
      with ⟨i, hif, fromN, h1, h2⟩
    have hfmem := List.mem_filter.1 h1
    have hflay : fromN.layer = i := by simpa using hfmem.2
    have hfshape := buildNeurons_shape sizes fromN hfmem.1
    have hcf : c.fromId = fromN.id := connsFor_fromId sh r _ fromN c h2
    have hcf1 : c.fromId.1 = i := by
      rw [hcf, hfshape.1, hflay]
    rcases connsFor_toId sh r _ fromN c hsh h2 with ⟨v, hv, hvt⟩
    have hvmem := List.mem_filter.1 hv
    have hvlay : v.layer = i + 1 := by simpa using hvmem.2
    have hvshape := buildNeurons_shape sizes v hvmem.1
    refine ⟨?_, ?_, ?_, ?_, ?_⟩
    · rw [hcf1, hvt, hvshape.1, hvlay]
    · rw [hcf1]
      omega
    · exact ⟨v, hvmem.1, hvt.symm, by rw [hvlay, hcf1]⟩
    · exact ⟨fromN, hfmem.1, hcf.symm⟩
    · exact connsFor_weight sh r _ fromN c hr h2

/-- C6 witness at a concrete two-layer topology with the identity
shuffle and a constant random stream: the first unit's out-degree and
target distinctness. -/
theorem C6_topology_witness :
    ((buildConnections demoSh demoR demoSizes (buildNeurons demoSizes)).filter
        fun c => decide (c.fromId = demoUnit.id)).length
      = min 8 (demoSizes.getD (demoUnit.layer + 1) 0)
    ∧ (((buildConnections demoSh demoR demoSizes
        (buildNeurons demoSizes)).filter
          fun c => decide (c.fromId = demoUnit.id)).map fun c => c.toId).Nodup :=
  (C6_topology demoSh demoR demoSizes (fun _ l => List.Perm.refl l)
    (fun _ _ => by norm_num [demoR])).1 demoUnit (by decide) (by decide)

end SparseSim
